import Mathlib

/-!
Verification of the documentation-model builder and cross-reference
resolution engine of the cppdoc-style generator (src/parser.rs,
src/render.rs, src/templates.rs, src/main.rs).

Rust strings are modelled as `List Char`; `HashMap<String, String>` is
modelled as an association list with insert-or-replace semantics; the
clang AST is modelled as a tree of entities carrying exactly the
attributes the parser reads.  Panics (`unwrap` on fallible operations
whose failure the claims exercise) are modelled with `Except`; `unwrap`
on attributes the parser assumes present (entity names, types) is
modelled by defaulting, since no claim exercises those paths.
-/

namespace Cppdoc

abbrev Str := List Char

/-- First-match in-place update, the shape of Rust's `iter_mut().find`
followed by a mutation of the found element. -/
def updateFirst (p : α → Bool) (f : α → α) : List α → List α
  | [] => []
  | x :: rest => if p x then f x :: rest else x :: updateFirst p f rest

/-- Rust `str::trim_start_matches(pat)`: repeatedly strip the prefix `pat`.
Fuel-structured on the string length so that it stays kernel-reducible. -/
def trimStartMatchesGo : Nat → Str → Str → Str
  | 0, _, s => s
  | fuel+1, pat, s =>
    if !pat.isEmpty && pat.isPrefixOf s then trimStartMatchesGo fuel pat (s.drop pat.length)
    else s

def trimStartMatches (pat s : Str) : Str := trimStartMatchesGo s.length pat s

/-- Rust `str::trim_matches(p)`: strip matching chars from both ends. -/
def trimMatchesPred (p : Char → Bool) (s : Str) : Str :=
  ((s.dropWhile p).reverse.dropWhile p).reverse

/-- ASCII model of Rust `str::trim`. -/
def isWspace (c : Char) : Bool := c == ' ' || c == '\t' || c == '\n' || c == '\r'

def trimSpaces (s : Str) : Str := trimMatchesPred isWspace s

/-- Rust `str::contains(&str)`: substring containment. -/
def containsSub (pat : Str) : Str → Bool
  | [] => pat.isEmpty
  | c :: rest => pat.isPrefixOf (c :: rest) || containsSub pat rest

/-- Rust `str::split("::")`: leftmost, non-overlapping. -/
def splitCC : Str → List Str
  | [] => [[]]
  | [c] => [[c]]
  | c :: c2 :: rest =>
    if c = ':' ∧ c2 = ':' then [] :: splitCC rest
    else
      match splitCC (c2 :: rest) with
      | [] => [[c]]
      | h :: t => (c :: h) :: t

/-- Rust `str::split(sep)` for a one-char separator. -/
def splitChar (sep : Char) : Str → List Str
  | [] => [[]]
  | c :: rest =>
    if c == sep then [] :: splitChar sep rest
    else
      match splitChar sep rest with
      | [] => [[c]]
      | h :: t => (c :: h) :: t

def joinWith (sep : Str) : List Str → Str
  | [] => []
  | [x] => x
  | x :: rest => x ++ sep ++ joinWith sep rest

/-- Rust `str::replace("::", "/")`. -/
def replaceColons : Str → Str
  | [] => []
  | ':' :: ':' :: rest => '/' :: replaceColons rest
  | c :: rest => c :: replaceColons rest

/-- Rust `str::replace("/", "slash")`. -/
def replaceSlash : Str → Str
  | [] => []
  | '/' :: rest => "slash".toList ++ replaceSlash rest
  | c :: rest => c :: replaceSlash rest

/-- Rust `str::replace("\"", "&quot")` from `Parser::parse_function`. -/
def replaceQuote : Str → Str
  | [] => []
  | '"' :: rest => "&quot".toList ++ replaceQuote rest
  | c :: rest => c :: replaceQuote rest

/-- The Global Symbol Index: `HashMap<String, String>` as an association
list, `insert` replacing the value of an existing key. -/
abbrev Index := List (Str × Str)

def idxLookup (idx : Index) (k : Str) : Option Str :=
  (idx.find? (fun p => p.1 == k)).map (·.2)

def idxInsert (idx : Index) (k v : Str) : Index :=
  if (idx.find? (fun p => p.1 == k)).isSome then
    updateFirst (fun p => p.1 == k) (fun p => (p.1, v)) idx
  else
    idx ++ [(k, v)]

/-- Number of entries of the index holding a given key. -/
def idxCountKey (idx : Index) (k : Str) : Nat :=
  idx.countP (fun p => p.1 == k)

/-- Well-formed index: at most one entry per key (every `HashMap` is). -/
def idxWF (idx : Index) : Prop := (idx.map (·.1)).Nodup

/-! ## The documentation model (structs of src/parser.rs) -/

/-- Modelled from the spec: `comment::parse_comment` lives in
`comment.rs`, which is not part of the sources; the spec says its
output is consumed opaquely, so the structured comment is modelled as
the raw comment string it was built from. -/
structure Comment where
  raw : Str
deriving DecidableEq

structure FunctionProps where
  const_ : Bool
  static_ : Bool
  virtual_ : Bool
deriving DecidableEq

structure TemplateParameter where
  name : Str
  type_ : Str
deriving DecidableEq

structure Template where
  parameters : List TemplateParameter
deriving DecidableEq

structure EnumValue where
  name : Str
  comment : Option Comment
deriving DecidableEq

structure Enum where
  name : Str
  comment : Option Comment
  namespace_ : Option Str
  values : List EnumValue
deriving DecidableEq

structure Alias where
  namespace_ : Option Str
  name : Str
  type_ : Str
  comment : Option Comment
deriving DecidableEq

mutual
inductive Field where
  | mk (name : Str) (type_ : Str) (comment : Option Comment) (struct_ : Option NestedField)

inductive NestedField where
  | record (r : Record)
  | enum (e : Enum)

inductive Record where
  | mk (name : Str) (fields : List Field) (comment : Option Comment) (kind : Str)
       (namespace_ : Option Str) (ctor : List Function) (methods : List Function)
       (template : Option Template) (nested : Option (List NestedField))

inductive Function where
  | mk (name : Str) (return_type : Str) (parameters : List Field) (comment : Option Comment)
       (props : FunctionProps) (namespace_ : Option Str) (template : Option Template)
       (overloads : Option (List Function))
end

def Field.name : Field → Str
  | .mk n _ _ _ => n

def Field.type_ : Field → Str
  | .mk _ t _ _ => t

def Field.comment : Field → Option Comment
  | .mk _ _ c _ => c

def Field.struct_ : Field → Option NestedField
  | .mk _ _ _ s => s

def Record.name : Record → Str
  | .mk n _ _ _ _ _ _ _ _ => n

def Record.fields : Record → List Field
  | .mk _ f _ _ _ _ _ _ _ => f

def Record.comment : Record → Option Comment
  | .mk _ _ c _ _ _ _ _ _ => c

def Record.kind : Record → Str
  | .mk _ _ _ k _ _ _ _ _ => k

def Record.namespace_ : Record → Option Str
  | .mk _ _ _ _ ns _ _ _ _ => ns

def Record.ctor : Record → List Function
  | .mk _ _ _ _ _ c _ _ _ => c

def Record.methods : Record → List Function
  | .mk _ _ _ _ _ _ m _ _ => m

def Record.template : Record → Option Template
  | .mk _ _ _ _ _ _ _ t _ => t

def Record.nested : Record → Option (List NestedField)
  | .mk _ _ _ _ _ _ _ _ n => n

def Function.name : Function → Str
  | .mk n _ _ _ _ _ _ _ => n

def Function.return_type : Function → Str
  | .mk _ r _ _ _ _ _ _ => r

def Function.parameters : Function → List Field
  | .mk _ _ p _ _ _ _ _ => p

def Function.comment : Function → Option Comment
  | .mk _ _ _ c _ _ _ _ => c

def Function.props : Function → FunctionProps
  | .mk _ _ _ _ p _ _ _ => p

def Function.namespace_ : Function → Option Str
  | .mk _ _ _ _ _ ns _ _ => ns

def Function.template : Function → Option Template
  | .mk _ _ _ _ _ _ t _ => t

def Function.overloads : Function → Option (List Function)
  | .mk _ _ _ _ _ _ _ o => o

/-- `function.namespace = Some(x)`. -/
def Function.setNamespace (f : Function) (x : Str) : Function :=
  match f with
  | .mk n r p c pr _ t o => .mk n r p c pr (some x) t o

/-- `function.return_type = "".to_string()`. -/
def Function.clearReturnType (f : Function) : Function :=
  match f with
  | .mk n _ p c pr ns t o => .mk n [] p c pr ns t o

/-- The overload push of `Parser::parse_node`: create the overload list
if absent, then push. -/
def Function.pushOverload (f g : Function) : Function :=
  match f with
  | .mk n r p c pr ns t o =>
    .mk n r p c pr ns t (some ((o.getD []) ++ [g]))

def Record.setNamespace (r : Record) (x : Str) : Record :=
  match r with
  | .mk n f c k _ ct m t nst => .mk n f c k (some x) ct m t nst

/-- `existing.methods.append(&mut record.methods)`. -/
def Record.appendMethods (r : Record) (ms : List Function) : Record :=
  match r with
  | .mk n f c k ns ct m t nst => .mk n f c k ns ct (m ++ ms) t nst

inductive Namespace where
  | mk (name : Str) (comment : Option Comment) (records : List Record)
       (functions : List Function) (namespaces : List Namespace)
       (enums : List Enum) (aliases : List Alias) (namespace_ : Option Str)

def Namespace.name : Namespace → Str
  | .mk n _ _ _ _ _ _ _ => n

def Namespace.comment : Namespace → Option Comment
  | .mk _ c _ _ _ _ _ _ => c

def Namespace.records : Namespace → List Record
  | .mk _ _ r _ _ _ _ _ => r

def Namespace.functions : Namespace → List Function
  | .mk _ _ _ f _ _ _ _ => f

def Namespace.namespaces : Namespace → List Namespace
  | .mk _ _ _ _ n _ _ _ => n

def Namespace.enums : Namespace → List Enum
  | .mk _ _ _ _ _ e _ _ => e

def Namespace.aliases : Namespace → List Alias
  | .mk _ _ _ _ _ _ a _ => a

def Namespace.namespace_ : Namespace → Option Str
  | .mk _ _ _ _ _ _ _ ns => ns

def Namespace.setRecords (ns : Namespace) (rs : List Record) : Namespace :=
  match ns with
  | .mk n c _ f sub e a p => .mk n c rs f sub e a p

def Namespace.setFunctions (ns : Namespace) (fs : List Function) : Namespace :=
  match ns with
  | .mk n c r _ sub e a p => .mk n c r fs sub e a p

def Namespace.setNamespaces (ns : Namespace) (subs : List Namespace) : Namespace :=
  match ns with
  | .mk n c r f _ e a p => .mk n c r f subs e a p

def Namespace.setEnums (ns : Namespace) (es : List Enum) : Namespace :=
  match ns with
  | .mk n c r f sub _ a p => .mk n c r f sub es a p

def Namespace.setAliases (ns : Namespace) (as_ : List Alias) : Namespace :=
  match ns with
  | .mk n c r f sub e _ p => .mk n c r f sub e as_ p

/-- `Output` of src/parser.rs: the root namespace and the index. -/
structure Output where
  root : Namespace
  index : Index

/-! ## The AST entities consumed from clang (the external AST provider) -/

inductive EntityKind where
  | functionDecl | functionTemplate | structDecl | classDecl | unionDecl
  | classTemplate | enumDecl | namespaceDecl | typeAliasDecl
  | fieldDecl | constructorDecl | methodDecl | enumConstantDecl
  | typeRef | templateRef
  | templateTypeParameter | nonTypeTemplateParameter | templateTemplateParameter
  | parmDecl | otherKind
deriving DecidableEq, BEq

inductive Accessibility where
  | publicAcc | protectedAcc | privateAcc
deriving DecidableEq, BEq

/-- A clang entity, carrying exactly the attributes the parser reads:
kind, name, display type name, result type, raw comment, accessibility,
method predicates, typedef underlying type, display name, the
"declared in this file" predicate and the child list. -/
inductive Entity where
  | mk (kind : EntityKind) (name : Option Str) (typeName : Option Str)
       (resultType : Option Str) (comment : Option Str)
       (access : Option Accessibility)
       (isConstMethod : Bool) (isStaticMethod : Bool) (isVirtualMethod : Bool)
       (typedefUnderlying : Option Str) (displayName : Option Str)
       (inMainFile : Bool) (children : List Entity)

def Entity.kind : Entity → EntityKind
  | .mk k _ _ _ _ _ _ _ _ _ _ _ _ => k

def Entity.name : Entity → Option Str
  | .mk _ n _ _ _ _ _ _ _ _ _ _ _ => n

def Entity.typeName : Entity → Option Str
  | .mk _ _ t _ _ _ _ _ _ _ _ _ _ => t

def Entity.resultType : Entity → Option Str
  | .mk _ _ _ r _ _ _ _ _ _ _ _ _ => r

def Entity.comment : Entity → Option Str
  | .mk _ _ _ _ c _ _ _ _ _ _ _ _ => c

def Entity.access : Entity → Option Accessibility
  | .mk _ _ _ _ _ a _ _ _ _ _ _ _ => a

def Entity.isConstMethod : Entity → Bool
  | .mk _ _ _ _ _ _ c _ _ _ _ _ _ => c

def Entity.isStaticMethod : Entity → Bool
  | .mk _ _ _ _ _ _ _ s _ _ _ _ _ => s

def Entity.isVirtualMethod : Entity → Bool
  | .mk _ _ _ _ _ _ _ _ v _ _ _ _ => v

def Entity.typedefUnderlying : Entity → Option Str
  | .mk _ _ _ _ _ _ _ _ _ u _ _ _ => u

def Entity.displayName : Entity → Option Str
  | .mk _ _ _ _ _ _ _ _ _ _ d _ _ => d

def Entity.inMainFile : Entity → Bool
  | .mk _ _ _ _ _ _ _ _ _ _ _ m _ => m

def Entity.children : Entity → List Entity
  | .mk _ _ _ _ _ _ _ _ _ _ _ _ cs => cs

/-- The opaque comment processor applied by the parser. -/
def parse_comment (raw : Str) : Comment := ⟨raw⟩

/-! ## Parser (src/parser.rs) -/

/-- The `type_` computed for one template parameter in
`Parser::parse_template`. -/
def templateParamType (c : Entity) : Str :=
  match c.kind with
  | .templateTypeParameter => "typename".toList
  | .nonTypeTemplateParameter => c.typeName.getD []
  | .templateTemplateParameter => "template".toList
  | _ => []

def parse_template (node : Entity) : Template :=
  ⟨(node.children.filter (fun c =>
      c.kind == .templateTypeParameter || c.kind == .nonTypeTemplateParameter
        || c.kind == .templateTemplateParameter)).map
    (fun c => ⟨c.name.getD [], templateParamType c⟩)⟩

def parse_function (node : Entity) : Function :=
  Function.mk
    (replaceQuote (node.name.getD []))
    (node.resultType.getD [])
    ((node.children.filter (fun c => c.kind == .parmDecl)).map
      (fun c => Field.mk (c.name.getD []) (c.typeName.getD []) none none))
    (node.comment.map parse_comment)
    ⟨node.isConstMethod, node.isStaticMethod, node.isVirtualMethod⟩
    none
    (if node.kind == .functionTemplate then some (parse_template node) else none)
    none

def parse_enum (node : Entity) : Enum :=
  ⟨node.name.getD [],
   node.comment.map parse_comment,
   none,
   (node.children.filter (fun c => c.kind == .enumConstantDecl)).map
     (fun c => ⟨c.name.getD [], c.comment.map parse_comment⟩)⟩

def Record.setNested (r : Record) (n : Option (List NestedField)) : Record :=
  match r with
  | .mk nm f c k ns ct m t _ => .mk nm f c k ns ct m t n

def Record.pushField (r : Record) (fld : Field) : Record :=
  match r with
  | .mk nm f c k ns ct m t nst => .mk nm (f ++ [fld]) c k ns ct m t nst

def Record.pushCtor (r : Record) (fn : Function) : Record :=
  match r with
  | .mk nm f c k ns ct m t nst => .mk nm f c k ns (ct ++ [fn]) m t nst

def Record.pushMethod (r : Record) (fn : Function) : Record :=
  match r with
  | .mk nm f c k ns ct m t nst => .mk nm f c k ns ct (m ++ [fn]) t nst

/-- The record `kind` string of `Parser::parse_record`; the `_` arm is
`unreachable!()` in the source. -/
def recordKindStr (k : EntityKind) : Str :=
  match k with
  | .structDecl => "struct".toList
  | .classDecl => "class".toList
  | .classTemplate => "class".toList
  | .unionDecl => "union".toList
  | _ => []

mutual

/-- `Parser::parse_record` (src/parser.rs:196-331). -/
def parse_record : Entity → Record
  | node@(.mk kind name _ _ comment _ _ _ _ _ _ _ children) =>
    let init : Record :=
      .mk (name.getD []) [] (comment.map parse_comment) (recordKindStr kind) none [] []
        (if kind == EntityKind.classTemplate then some (parse_template node) else none) none
    parseRecordChildren children init

/-- The child loop of `Parser::parse_record`. -/
def parseRecordChildren : List Entity → Record → Record
  | [], acc => acc
  | c :: rest, acc =>
    -- the nested-record parse is hoisted out of the kind dispatch so that
    -- the recursion stays structural; it is only used in the record arm
    let childAsRecord := parse_record c
    parseRecordChildren rest
      (match c with
       | .mk ckind cname ctypeName _ ccomment caccess _ _ _ _ _ _ cchildren =>
        match ckind with
        | .fieldDecl =>
          if caccess == some Accessibility.publicAcc then
            let field : Field :=
              .mk (cname.getD []) (ctypeName.getD []) (ccomment.map parse_comment) none
            let field :=
              if containsSub "(unnamed struct".toList field.type_ then
                match parseFirstRecordOfKind EntityKind.structDecl cchildren with
                | some r => Field.mk field.name "struct".toList field.comment (some (.record r))
                | none => field
              else field
            let field :=
              if containsSub "(unnamed union".toList field.type_ then
                match parseFirstRecordOfKind EntityKind.unionDecl cchildren with
                | some r => Field.mk field.name "union".toList field.comment (some (.record r))
                | none => field
              else field
            let field :=
              if containsSub "(unnamed enum".toList field.type_ then
                match cchildren.find? (fun g => g.kind == EntityKind.enumDecl) with
                | some g =>
                  Field.mk field.name "enum".toList field.comment (some (.enum (parse_enum g)))
                | none => field
              else field
            acc.pushField field
          else acc
        | .constructorDecl =>
          acc.pushCtor ((parse_function c).clearReturnType)
        | .methodDecl | .functionTemplate =>
          if caccess == some Accessibility.publicAcc then
            acc.pushMethod ((parse_function c).setNamespace acc.name)
          else acc
        | .structDecl | .classDecl | .unionDecl | .classTemplate =>
          let record := childAsRecord
          if !("(anonymous".toList.isPrefixOf record.name)
              && !("(unnamed".toList.isPrefixOf record.name) then
            let record := record.setNamespace acc.name
            if acc.nested.isNone then
              acc.setNested (some [])
            else
              acc.setNested (some ((acc.nested.getD []) ++ [NestedField.record record]))
          else acc
        | .enumDecl =>
          let enum_ := parse_enum c
          if !("(anonymous".toList.isPrefixOf enum_.name)
              && !("(unnamed".toList.isPrefixOf enum_.name) then
            let enum_ := { enum_ with namespace_ := some acc.name }
            let acc := if acc.nested.isNone then acc.setNested (some []) else acc
            acc.setNested (some ((acc.nested.getD []) ++ [NestedField.enum enum_]))
          else acc
        | _ => acc)

/-- `c.get_children().iter().find(|c| c.get_kind() == K)` followed by
`parse_record` on the hit, used for unnamed struct/union field values. -/
def parseFirstRecordOfKind (k : EntityKind) : List Entity → Option Record
  | [] => none
  | g :: rest => if g.kind == k then some (parse_record g) else parseFirstRecordOfKind k rest

end

/-- `Parser::get_name_for_namespace`. -/
def getNameForNamespace (name namespaceName nsNameFull : Str) : Str :=
  if !nsNameFull.isEmpty then nsNameFull ++ "::".toList ++ name
  else if !namespaceName.isEmpty then namespaceName ++ "::".toList ++ name
  else name

/-- The loop over `record.nested` in the record arm of
`Parser::parse_node` (src/parser.rs:419-460): sets each named nested
record/enum's `namespace` and registers it in the index. -/
def registerNestedList (cur recName : Str) : List NestedField → Index → (List NestedField × Index)
  | [], idx => ([], idx)
  | NestedField.record r :: rest, idx =>
    let shadowed := if cur.isEmpty then recName else cur ++ "::".toList ++ recName
    let r := r.setNamespace shadowed
    let idx := idxInsert idx (getNameForNamespace r.name recName shadowed) "record".toList
    let res := registerNestedList cur recName rest idx
    (NestedField.record r :: res.1, res.2)
  | NestedField.enum e :: rest, idx =>
    let shadowed := if cur.isEmpty then recName else cur ++ "::".toList ++ recName
    let e := { e with namespace_ := some shadowed }
    let idx := idxInsert idx (getNameForNamespace e.name recName shadowed) "enum".toList
    let res := registerNestedList cur recName rest idx
    (NestedField.enum e :: res.1, res.2)

/-- One step of the type-alias reconstruction loop of `Parser::parse_node`
(src/parser.rs:524-542). -/
def aliasStep (childCount : Nat) (st : Str × Bool) (ic : Nat × Entity) : Str × Bool :=
  let (type_, templated) := st
  let (i, c) := ic
  let (type_, templated) :=
    if c.kind == EntityKind.typeRef then
      match c.typedefUnderlying with
      | some t => (type_ ++ t, templated)
      | none => (type_ ++ trimStartMatches "struct ".toList (c.displayName.getD []), templated)
    else if c.kind == EntityKind.templateRef then
      ((c.displayName.getD []) ++ ['<'], true)
    else (type_, templated)
  if templated && decide (i < childCount - 1) && decide (i ≠ 0) then
    (type_ ++ [','], templated)
  else (type_, templated)

mutual

/-- `Parser::parse_node` (src/parser.rs:369-565). -/
def parse_node : Entity → Namespace → Index → Str → Namespace × Index
  | node@(.mk kind nm _ _ cmt _ _ _ _ _ _ _ children), ns, idx, cur =>
    let absolute_name := getNameForNamespace (nm.getD []) ns.name cur
    match kind with
    | .functionDecl | .functionTemplate =>
      let function := (parse_function node).setNamespace cur
      if (ns.functions.find? (fun f => f.name == function.name)).isSome then
        (ns.setFunctions (updateFirst (fun f => f.name == function.name)
           (fun f => f.pushOverload function) ns.functions), idx)
      else if containsSub "deduction guide".toList function.name then
        (ns, idx)
      else
        (ns.setFunctions (ns.functions ++ [function]),
         idxInsert idx absolute_name "function".toList)
    | .structDecl | .classDecl | .unionDecl | .classTemplate =>
      let record := (parse_record node).setNamespace cur
      if (ns.records.find? (fun r => r.name == record.name)).isSome then
        (ns.setRecords (updateFirst (fun r => r.name == record.name)
           (fun r => r.appendMethods record.methods) ns.records), idx)
      else
        match record.nested with
        | some nest =>
          let res := registerNestedList cur record.name nest idx
          (ns.setRecords (ns.records ++ [record.setNested (some res.1)]),
           idxInsert res.2 absolute_name "record".toList)
        | none =>
          (ns.setRecords (ns.records ++ [record]),
           idxInsert idx absolute_name "record".toList)
    | .enumDecl =>
      let enum_ := { parse_enum node with namespace_ := some cur }
      (ns.setEnums (ns.enums ++ [enum_]), idxInsert idx absolute_name "enum".toList)
    | .namespaceDecl =>
      let name := nm.getD []
      let cur' := if !cur.isEmpty then cur ++ "::".toList ++ name else name
      let idx := idxInsert idx absolute_name "namespace".toList
      match ns.namespaces.find? (fun n => n.name == name) with
      | some _ =>
        let res := parse_nodes children
          ((ns.namespaces.find? (fun n => n.name == name)).getD ns) idx cur'
        (ns.setNamespaces (updateFirst (fun n => n.name == name) (fun _ => res.1) ns.namespaces),
         res.2)
      | none =>
        let res := parse_nodes children
          (.mk name (cmt.map parse_comment) [] [] [] [] [] (some cur)) idx cur'
        (ns.setNamespaces (ns.namespaces ++ [res.1]), res.2)
    | .typeAliasDecl =>
      let st := children.enum.foldl (aliasStep children.length) ([], false)
      let type_ := if st.2 then st.1 ++ ['>'] else st.1
      let type_ := if type_.isEmpty then "unknown".toList else type_
      let al : Alias := ⟨some cur, nm.getD [], type_, cmt.map parse_comment⟩
      (ns.setAliases (ns.aliases ++ [al]), idxInsert idx absolute_name "alias".toList)
    | _ => (ns, idx)

/-- The child loop of the namespace arm of `Parser::parse_node`. -/
def parse_nodes : List Entity → Namespace → Index → Str → Namespace × Index
  | [], ns, idx, _ => (ns, idx)
  | c :: rest, ns, idx, cur =>
    let res := parse_node c ns idx cur
    parse_nodes rest res.1 res.2 cur

end

/-- `Parser::parse` (src/parser.rs:567-580).  The clang translation unit
is `none` when `.parse()` returns `Err`, on which the source calls
`.unwrap()` and panics; the panic is the `Except.error` case. -/
def parserParse (tu : Option (List Entity)) (out : Output) : Except Str Output :=
  match tu with
  | none => .error "called Result::unwrap() on an Err value".toList
  | some roots =>
    let res := parse_nodes (roots.filter (·.inMainFile)) out.root out.index []
    .ok ⟨res.1, res.2⟩

/-- One entry of the batch loop of `main` (src/main.rs:77-89): either a
successfully globbed file (with the translation unit clang produces for
it, `none` when clang fails) or a glob iteration error. -/
inductive GlobItem where
  | okFile (tu : Option (List Entity))
  | errItem (msg : Str)

/-- The batch loop of `main` (src/main.rs:77-89): `Ok` files are parsed
(a parse failure panics and aborts the run), glob errors are reported
as warnings and the loop continues.  Returns the final output and the
warnings emitted, or the panic message. -/
def mainParseLoop : List GlobItem → Output → List Str → Except Str (Output × List Str)
  | [], out, warns => .ok (out, warns)
  | .okFile tu :: rest, out, warns =>
    match parserParse tu out with
    | .error e => .error e
    | .ok out' => mainParseLoop rest out' warns
  | .errItem msg :: rest, out, warns =>
    mainParseLoop rest out (warns ++ ["Error reading input file: ".toList ++ msg])

/-! ## Path derivation (src/render.rs) -/

/-- `get_path_for_name` (src/render.rs:20-43). -/
def get_path_for_name (name : Str) (index : Index) : Option Str :=
  match idxLookup index name with
  | none => none
  | some kind =>
    if kind == "namespace".toList then
      some (replaceColons name)
    else
      let name := trimStartMatches "::".toList name
      if containsSub "::".toList name then
        let parts := splitCC name
        match parts.getLast? with
        | none => none
        | some last =>
          let basename := replaceSlash last
          let path := joinWith "/".toList (parts.take (parts.length - 1))
          some (path ++ "/".toList ++ kind ++ ".".toList ++ basename)
      else
        some (kind ++ ".".toList ++ replaceSlash name)

/-! ## Cross-reference resolution (src/templates.rs) -/

/-- The part of the renderer configuration `get_link_for_type` reads. -/
structure Config where
  base_url : Str

/-- `cleanup_type` (src/templates.rs:20-24): `.replace(" &", "</span>&")`
then `.replace(" *", "</span>*")`. -/
def replacePair (a b : Char) (repl : Str) : Str → Str
  | [] => []
  | [x] => [x]
  | x :: y :: rest =>
    if x == a && y == b then repl ++ replacePair a b repl rest
    else x :: replacePair a b repl (y :: rest)

def cleanup_type (s : Str) : Str :=
  replacePair ' ' '*' "</span>*".toList (replacePair ' ' '&' "</span>&".toList s)

/-- The hyperlink `format!` of `get_link_for_type`:
`<a href="{base}/{ret}.html"><span class="kt">{disp}</span></a>{suffix}`. -/
def mkLink (baseUrl ret disp suffix : Str) : Str :=
  "<a href=\"".toList ++ baseUrl ++ "/".toList ++ ret
    ++ ".html\"><span class=\"kt\">".toList ++ disp ++ "</span></a>".toList ++ suffix

/-- State of the bracket-depth loop of `get_link_for_type`
(src/templates.rs:296-317). -/
structure SplitSt where
  type_params : List Str
  depth : Int
  start : Nat

/-- One iteration of the bracket-depth loop, at character `c` of index `i`. -/
def splitArgsStep (name : Str) (st : SplitSt) (i : Nat) (c : Char) : SplitSt :=
  let st :=
    if c == '<' then
      { st with start := if st.depth == 0 then i + 1 else st.start, depth := st.depth + 1 }
    else st
  if c == ',' && st.depth == 1 then
    { st with type_params := st.type_params ++ [(name.drop st.start).take (i - st.start)],
              start := i + 1 }
  else if c == '>' then
    let depth := st.depth - 1
    if depth == 0 then
      { st with depth := depth,
                type_params := st.type_params ++ [(name.drop st.start).take (i - st.start)] }
    else { st with depth := depth }
  else st

/-- The list of top-level template argument substrings collected by the
bracket-depth loop of `get_link_for_type`. -/
def splitTemplateArgs (name : Str) : List Str :=
  (name.enum.foldl (fun st ic => splitArgsStep name st ic.1 ic.2) ⟨[], 0, 0⟩).type_params

/-- `type_name`: `name.split('<').next().unwrap()`, trimmed. -/
def templateOuterName (name : Str) : Str :=
  trimSpaces ((splitChar '<' name).headI)

/-- The trailing suffix of the template branch:
`name.split('>').last().unwrap_or_default()`, trimmed. -/
def templateSuffix (name : Str) : Str :=
  trimSpaces ((splitChar '>' name).getLast?.getD [])

/-- The fallback loop of `get_link_for_type` (src/templates.rs:384-398):
try `parts.join("::") :: cleaned` for `parts` shrinking from the back.
`k` is the number of leading components still kept. -/
def glftFallback (cfg : Config) (index : Index) (cleaned nws suffix : Str)
    (parts : List Str) : Nat → Option Str
  | 0 => none
  | k+1 =>
    match get_path_for_name (joinWith "::".toList (parts.take (k+1)) ++ "::".toList ++ cleaned)
        index with
    | some ret => some (mkLink cfg.base_url ret nws suffix)
    | none => glftFallback cfg index cleaned nws suffix parts k

/-- The non-template part of `get_link_for_type`
(src/templates.rs:285-288 and 350-400): qualifier stripping, absolute
lookup, contextual lookup and the ancestor fallback.  The template
branch of the source never reads the stripped forms, so this part is
self-contained. -/
def glftPlain (name curr_namespace : Str) (config : Config) (index : Index) : Option Str :=
  let cleaned_name := trimStartMatches "const ".toList name
  let name_without_suffix := trimMatchesPred (fun c => c == '&' || c == ' ' || c == '*') name
  let suffix := trimSpaces (trimStartMatches name_without_suffix name)
  let cleaned_name := trimMatchesPred (fun c => c == '&' || c == ' ' || c == '*') cleaned_name
  let absoluteHit :=
    if "::".toList.isPrefixOf cleaned_name then
      get_path_for_name (trimStartMatches "::".toList cleaned_name) index
    else none
  match absoluteHit with
  | some ret => some (mkLink config.base_url ret name_without_suffix suffix)
  | none =>
    match get_path_for_name (curr_namespace ++ "::".toList ++ cleaned_name) index with
    | some ret => some (mkLink config.base_url ret name_without_suffix suffix)
    | none =>
      match get_path_for_name cleaned_name index with
      | some ret => some (mkLink config.base_url ret name_without_suffix suffix)
      | none =>
        let parts := splitCC curr_namespace
        glftFallback config index cleaned_name name_without_suffix suffix parts parts.length

/-- `get_link_for_type` (src/templates.rs:279-401), fuel-structured for
kernel reducibility; the recursive calls always shorten the type
expression, so a fuel of `name.length + 1` (`get_link_for_type` below)
is never exhausted.  The `", "`-separator logic of the argument loop
(push `", "` for every index below `len - 1`) is rendered as a join. -/
def glft : Nat → Str → Str → Config → Index → Option Str
  | 0, _, _, _, _ => none
  | fuel+1, name, curr_namespace, config, index =>
    if name.contains '<' then
      let type_name := templateOuterName name
      let type_params := splitTemplateArgs name
      let tailSuffix := templateSuffix name
      let ret := joinWith ", ".toList (type_params.map (fun param =>
        let param := trimSpaces param
        match glft fuel param curr_namespace config index with
        | some link => link
        | none => "<span class=\"kt\">".toList ++ cleanup_type param ++ "</span>".toList))
      some ((glft fuel type_name curr_namespace config index).getD
              ("<span class=\"kt\">".toList ++ cleanup_type type_name ++ "</span>".toList)
            ++ "&lt;".toList ++ ret ++ "&gt;".toList ++ tailSuffix)
    else
      glftPlain name curr_namespace config index

/-- `get_link_for_type` at its natural fuel. -/
def get_link_for_type (name curr : Str) (config : Config) (index : Index) : Option Str :=
  glft (name.length + 1) name curr config index

/-- For a type expression without `<`, `get_link_for_type` is its
non-template part at any positive fuel. -/
theorem glft_of_not_contains (fuel : Nat) (name curr : Str) (config : Config) (index : Index)
    (h : name.contains '<' = false) (hf : 1 ≤ fuel) :
    glft fuel name curr config index = glftPlain name curr config index := by
  match fuel, hf with
  | fuel+1, _ =>
    rw [glft]
    simp only [h, Bool.false_eq_true, if_false]

theorem get_link_for_type_of_not_contains (name curr : Str) (config : Config) (index : Index)
    (h : name.contains '<' = false) :
    get_link_for_type name curr config index = glftPlain name curr config index :=
  glft_of_not_contains _ _ _ _ _ h (by omega)

/-! ## Claim C2: template argument splitting -/

/-- C2: for a type expression containing `<`, resolution splits it into
the outer name (the text before the first `<`) and the ordered list of
top-level argument substrings, splitting on `,` only at bracket depth 1
and closing the list when depth returns to 0, so nested template
arguments are never mis-split: `"Foo<Bar<Baz>,Qux>"` yields exactly the
two arguments `"Bar<Baz>"` and `"Qux"`; a depth-2 comma as in
`"A<B<C,D>,E<F>,G>"` does not split; text after the closing `>` is not
made an argument. -/
theorem C2_template_argument_split :
    templateOuterName "Foo<Bar<Baz>,Qux>".toList = "Foo".toList ∧
    splitTemplateArgs "Foo<Bar<Baz>,Qux>".toList = ["Bar<Baz>".toList, "Qux".toList] ∧
    splitTemplateArgs "A<B<C,D>,E<F>,G>".toList
      = ["B<C,D>".toList, "E<F>".toList, "G".toList] ∧
    splitTemplateArgs "A<B> suffix".toList = ["B".toList] := by
  refine ⟨by decide, by decide, by decide, by decide⟩

/-! ## Claim C4: registration of named nested records and enums -/

/-- An `Outer` struct entity declaring a single named nested struct
`Inner`, the input on which the nested-record registration fails. -/
def c4InnerEntity : Entity :=
  .mk .structDecl (some "Inner".toList) none none none none
    false false false none none true []

def c4OuterEntity : Entity :=
  .mk .structDecl (some "Outer".toList) none none none none
    false false false none none true [c4InnerEntity]

/-- Like `c4OuterEntity` but with two named nested structs. -/
def c4OuterTwoEntity : Entity :=
  .mk .structDecl (some "Outer".toList) none none none none
    false false false none none true
    [c4InnerEntity,
     .mk .structDecl (some "Inner2".toList) none none none none
       false false false none none true []]

def emptyRootNs : Namespace := .mk [] none [] [] [] [] [] none

/-- C4 fails on the code: parsing a record `Outer` whose only named
nested member is the record `Inner` leaves the nested list empty (the
`else if` in the nested-record arm of `Parser::parse_record` creates
the vector on the first hit but never pushes into it), so no
`Outer::Inner` index entry of kind `record` is ever created; with two
named nested records only the second survives.  The enum arm directly
below handles the same situation correctly, so the record arm is a
slip. -/
theorem C4_first_nested_record_dropped :
    (parse_record c4OuterEntity).nested = some [] ∧
    (parse_node c4OuterEntity emptyRootNs [] []).2
      = [("Outer".toList, "record".toList)] ∧
    idxLookup (parse_node c4OuterEntity emptyRootNs [] []).2 "Outer::Inner".toList = none ∧
    ((parse_record c4OuterTwoEntity).nested.getD []).length = 1 ∧
    idxLookup (parse_node c4OuterTwoEntity emptyRootNs [] []).2 "Outer::Inner".toList = none ∧
    idxLookup (parse_node c4OuterTwoEntity emptyRootNs [] []).2 "Outer::Inner2".toList
      = some "record".toList := by
  refine ⟨rfl, by decide, by decide, by decide, by decide, by decide⟩

/-! ## Claim C9: error handling of the batch loop -/

/-- C9 fails on the code: a file whose clang parse fails (`Err` from
`.parse()`, on which `Parser::parse` calls `.unwrap()`) panics and
aborts the whole batch without a warning — the remaining files are
never processed.  The claim's warn-and-continue behaviour exists only
for glob iteration errors. -/
theorem C9_unparseable_file_aborts_run :
    mainParseLoop [.okFile none, .okFile (some [])] ⟨emptyRootNs, []⟩ []
      = .error "called Result::unwrap() on an Err value".toList := rfl

/-- C9 amended: a path that fails during glob iteration (an unreadable
input) is reported as a warning and skipped and the batch continues
with the model preserved, and a batch whose files all parse completes
with the warnings of exactly its glob errors; but a file for which the
clang parser returns an error makes `Parser::parse` panic on `unwrap`,
aborting the whole run. -/
theorem C9_amended_warn_skip_continue :
    (∀ m rest out warns,
      mainParseLoop (.errItem m :: rest) out warns
        = mainParseLoop rest out (warns ++ ["Error reading input file: ".toList ++ m])) ∧
    (∀ rest out warns,
      mainParseLoop (.okFile none :: rest) out warns
        = .error "called Result::unwrap() on an Err value".toList) ∧
    (∀ items out warns,
      (∀ tu, GlobItem.okFile tu ∈ items → tu.isSome) →
      ∃ r, mainParseLoop items out warns = .ok r) := by
  refine ⟨fun m rest out warns => rfl, fun rest out warns => rfl, ?_⟩
  intro items
  induction items with
  | nil => exact fun out warns _ => ⟨(out, warns), rfl⟩
  | cons item rest ih =>
    intro out warns h
    match item with
    | .okFile tu =>
      have htu : tu.isSome := h tu (by simp)
      match tu, htu with
      | some roots, _ =>
        have := ih ((parserParse (some roots) out).toOption.getD out) warns
          (fun tu' hm => h tu' (List.mem_cons_of_mem _ hm))
        simpa [mainParseLoop, parserParse] using this
    | .errItem m =>
      have := ih out (warns ++ ["Error reading input file: ".toList ++ m])
        (fun tu' hm => h tu' (List.mem_cons_of_mem _ hm))
      simpa [mainParseLoop] using this

/-- Witness for the amended C9 at concrete inputs: one glob error
followed by one parseable file completes with exactly the one warning. -/
theorem C9_amended_witness :
    (∀ tu, GlobItem.okFile tu ∈
        [GlobItem.errItem "denied".toList, GlobItem.okFile (some [])] → tu.isSome) ∧
    ∃ r, mainParseLoop [GlobItem.errItem "denied".toList, GlobItem.okFile (some [])]
        ⟨emptyRootNs, []⟩ [] = .ok r := by
  refine ⟨?_, C9_amended_warn_skip_continue.2.2 _ ⟨emptyRootNs, []⟩ [] ?_⟩ <;>
    intro tu hm <;> simp at hm <;> simp [hm]

/-! ## Claim C7: path derivation from an index hit -/

theorem splitCC_ne_nil (s : Str) : splitCC s ≠ [] := by
  induction s using splitCC.induct with
  | case1 => simp [splitCC]
  | case2 c => simp [splitCC]
  | case3 c c2 rest hcc ih => simp [splitCC, hcc]
  | case4 c c2 rest hcc heq ih => exact absurd heq ih
  | case5 c c2 rest hcc h t heq ih => simp [splitCC, hcc, heq]

/-- `s` holds a `"::"` exactly when the `"::"`-split has two or more
components. -/
theorem containsCC_iff_split (s : Str) :
    containsSub "::".toList s = true ↔ 2 ≤ (splitCC s).length := by
  induction s using splitCC.induct with
  | case1 => simp [containsSub, splitCC, List.isPrefixOf]
  | case2 c => simp [containsSub, splitCC, List.isPrefixOf]
  | case3 c c2 rest hcc ih =>
    obtain ⟨h1, h2⟩ := hcc
    subst h1; subst h2
    have h1 : (1 : Nat) ≤ (splitCC rest).length :=
      Nat.one_le_iff_ne_zero.mpr (by simpa [List.length_eq_zero] using splitCC_ne_nil rest)
    simp [containsSub, splitCC, List.isPrefixOf]
    omega
  | case4 c c2 rest hcc heq ih => exact absurd heq (splitCC_ne_nil _)
  | case5 c c2 rest hcc h t heq ih =>
    have hpre : List.isPrefixOf "::".toList (c :: c2 :: rest) = false := by
      by_cases h1 : c = ':'
      · by_cases h2 : c2 = ':'
        · exact absurd ⟨h1, h2⟩ hcc
        · simp [List.isPrefixOf, h1, h2]
          intro he
          exact absurd he.symm h2
      · simp [List.isPrefixOf]
        intro he
        exact absurd he.symm h1
    rw [containsSub, hpre]
    rw [splitCC.eq_3]
    simp only [if_neg hcc, heq, Bool.false_or]
    simpa [heq] using ih

/-- The target path as the amended C7 describes it: a namespace hit
maps to the dotted path (`::` replaced by `/`, no `/index` suffix);
any other kind maps to `<kind>.<basename>` under the directory of the
qualifier components before the last `::` (after stripping a leading
`::`), `/` in the basename escaped to `"slash"`. -/
def pathPerAmendedClaim (name kind : Str) : Str :=
  if kind = "namespace".toList then
    replaceColons name
  else
    let trimmed := trimStartMatches "::".toList name
    let comps := splitCC trimmed
    if comps.length ≤ 1 then
      kind ++ ".".toList ++ replaceSlash trimmed
    else
      joinWith "/".toList comps.dropLast ++ "/".toList ++ kind ++ ".".toList
        ++ replaceSlash (comps.getLast?.getD [])

/-- C7 fails on the code as stated: `get_path_for_name` maps a
namespace hit to the bare dotted path, without the `/index` suffix the
claim asserts (the `/index` is appended by the search-index writer in
`main`, outside the path derivation). -/
theorem C7_namespace_path_counterexample :
    get_path_for_name "a::b".toList [("a::b".toList, "namespace".toList)]
        = some "a/b".toList ∧
    "a/b".toList ≠ "a/b/index".toList := by
  exact ⟨by decide, by decide⟩

/-- C7 amended: for every index hit, a namespace hit maps to the dotted
path (`::` → `/`) with no `/index` suffix, and a hit of any other kind
maps to `<kind>.<basename>` under the directory formed by the qualifier
components before the last `::`, with `/` in the basename escaped to
the token `"slash"`. -/
theorem C7_amended_path_derivation (name : Str) (idx : Index) (kind : Str)
    (h : idxLookup idx name = some kind) :
    get_path_for_name name idx = some (pathPerAmendedClaim name kind) := by
  unfold get_path_for_name pathPerAmendedClaim
  rw [h]
  by_cases hk : kind = "namespace".toList
  · simp [hk]
  · have hk' : (kind == "namespace".toList) = false := by
      simpa using hk
    simp only [hk', if_neg hk, Bool.false_eq_true, if_false]
    by_cases hc : containsSub "::".toList (trimStartMatches "::".toList name) = true
    · have hlen := (containsCC_iff_split _).mp hc
      rcases hlast : (splitCC (trimStartMatches "::".toList name)).getLast? with _ | last
      · exact absurd (List.getLast?_eq_none_iff.mp hlast)
          (splitCC_ne_nil (trimStartMatches "::".toList name))
      · simp only [hc, if_true, hlast]
        have hnle : ¬ (splitCC (trimStartMatches "::".toList name)).length ≤ 1 := by omega
        simp only [if_neg hnle, Option.getD_some]
        rw [List.dropLast_eq_take]
    · have hlen : (splitCC (trimStartMatches "::".toList name)).length ≤ 1 := by
        by_contra hgt
        exact hc ((containsCC_iff_split _).mpr (by omega))
      split
      · exact absurd (by assumption) hc
      · rfl

/-- Witness for the amended C7: a record hit with a qualifier and a `/`
in its basename. -/
theorem C7_amended_witness :
    get_path_for_name "x::y/z".toList [("x::y/z".toList, "record".toList)]
      = some "x/record.yslashz".toList :=
  (C7_amended_path_derivation "x::y/z".toList
      [("x::y/z".toList, "record".toList)] "record".toList (by decide)).trans
    (by decide)

/-! ## Claim C6: merging a re-encountered record -/

@[simp] theorem Record.name_setNamespace (r : Record) (x : Str) :
    (r.setNamespace x).name = r.name := by cases r; rfl

@[simp] theorem Record.methods_setNamespace (r : Record) (x : Str) :
    (r.setNamespace x).methods = r.methods := by cases r; rfl

/-- C6: when the parsed record's name matches an existing record of the
same namespace node, the namespace is only changed by appending the new
parse's methods to the first record of that name (its other attributes
untouched), the rest of the new parse is discarded, and the index is
not modified. -/
theorem C6_record_remerge_frame (e : Entity) (ns : Namespace) (idx : Index) (cur : Str)
    (hk : e.kind = .structDecl ∨ e.kind = .classDecl ∨ e.kind = .unionDecl
        ∨ e.kind = .classTemplate)
    (hex : (ns.records.find? (fun r => r.name == (parse_record e).name)).isSome = true) :
    parse_node e ns idx cur
      = (ns.setRecords (updateFirst (fun r => r.name == (parse_record e).name)
          (fun r => r.appendMethods (parse_record e).methods) ns.records), idx)
    ∧ ∀ r ms, (Record.appendMethods r ms).name = r.name
        ∧ (Record.appendMethods r ms).fields = r.fields
        ∧ (Record.appendMethods r ms).comment = r.comment
        ∧ (Record.appendMethods r ms).kind = r.kind
        ∧ (Record.appendMethods r ms).namespace_ = r.namespace_
        ∧ (Record.appendMethods r ms).ctor = r.ctor
        ∧ (Record.appendMethods r ms).template = r.template
        ∧ (Record.appendMethods r ms).nested = r.nested
        ∧ (Record.appendMethods r ms).methods = r.methods ++ ms := by
  constructor
  · obtain ⟨k, nm, tn, rt, cm, ac, c1, c2, c3, tu, dn, mf, ch⟩ := e
    rcases hk with hk | hk | hk | hk <;>
      (simp only [Entity.kind] at hk; subst hk; simp only [parse_node];
       simp only [Record.name_setNamespace, Record.methods_setNamespace] at hex ⊢;
       rw [if_pos hex])
  · intro r ms
    cases r
    exact ⟨rfl, rfl, rfl, rfl, rfl, rfl, rfl, rfl, rfl⟩

/-- Witness for C6: reparsing `struct S { void m(); }` into a namespace
that already holds a record `S` with one field extends only its method
list. -/
theorem C6_record_remerge_witness :
    (parse_node
      (.mk .structDecl (some "S".toList) none none none none false false false none none true
        [.mk .methodDecl (some "m".toList) none (some "void".toList) none
          (some .publicAcc) false false false none none true []])
      (.mk [] none
        [.mk "S".toList [.mk "x".toList "int".toList none none] none "struct".toList
          (some [].asString.toList) [] [] none none]
        [] [] [] [] none)
      [("S".toList, "record".toList)] []).1.records
    = [.mk "S".toList [.mk "x".toList "int".toList none none] none "struct".toList
        (some [].asString.toList) []
        [.mk "m".toList "void".toList [] none ⟨false, false, false⟩ (some "S".toList) none none]
        none none] := by
  have h := C6_record_remerge_frame
    (.mk .structDecl (some "S".toList) none none none none false false false none none true
      [.mk .methodDecl (some "m".toList) none (some "void".toList) none
        (some .publicAcc) false false false none none true []])
    (.mk [] none
      [.mk "S".toList [.mk "x".toList "int".toList none none] none "struct".toList
        (some [].asString.toList) [] [] none none]
      [] [] [] [] none)
    [("S".toList, "record".toList)] [] (Or.inl rfl) (by decide)
  rw [congrArg Prod.fst h.1]
  rfl

/-! ## Claim C1: overload collapse of free functions -/

@[simp] theorem Namespace.functions_setFunctions (ns : Namespace) (l : List Function) :
    (ns.setFunctions l).functions = l := by cases ns; rfl

@[simp] theorem Namespace.name_setFunctions (ns : Namespace) (l : List Function) :
    (ns.setFunctions l).name = ns.name := by cases ns; rfl

@[simp] theorem Function.fn_name_setNamespace (f : Function) (x : Str) :
    (f.setNamespace x).name = f.name := by cases f; rfl

@[simp] theorem Function.overloads_setNamespace (f : Function) (x : Str) :
    (f.setNamespace x).overloads = f.overloads := by cases f; rfl

theorem parse_function_name (e : Entity) :
    (parse_function e).name = replaceQuote (e.name.getD []) := by
  obtain ⟨k, nm, tn, rt, cm, ac, c1, c2, c3, tu, dn, mf, ch⟩ := e
  rfl

@[simp] theorem parse_function_overloads (e : Entity) :
    (parse_function e).overloads = none := by
  obtain ⟨k, nm, tn, rt, cm, ac, c1, c2, c3, tu, dn, mf, ch⟩ := e
  rfl

theorem find?_append_left_none {p : α → Bool} {l1 : List α} (l2 : List α)
    (h : l1.find? p = none) : (l1 ++ l2).find? p = l2.find? p := by
  induction l1 with
  | nil => rfl
  | cons x rest ih =>
    rcases hx : p x with _ | _
    · simp only [List.cons_append, List.find?, hx] at h ⊢
      exact ih h
    · simp [List.find?, hx] at h

theorem updateFirst_append_of_none {p : α → Bool} {f : α → α} {l1 : List α} (l2 : List α)
    (h : ∀ x ∈ l1, p x = false) :
    updateFirst p f (l1 ++ l2) = l1 ++ updateFirst p f l2 := by
  induction l1 with
  | nil => rfl
  | cons x rest ih =>
    have hx := h x (by simp)
    simp only [List.cons_append, updateFirst, hx, Bool.false_eq_true, if_false, List.cons.injEq,
      true_and]
    exact ih (fun y hy => h y (by simp [hy]))

theorem idxInsert_cons_ne (p : Str × Str) (rest : Index) (k v : Str)
    (h : (p.1 == k) = false) :
    idxInsert (p :: rest) k v = p :: idxInsert rest k v := by
  unfold idxInsert
  rw [List.find?_cons]
  rcases hf : (rest.find? (fun q => q.1 == k)).isSome with _ | _
  · simp only [h]
    rw [hf]
    simp
  · simp only [h]
    rw [hf]
    simp [updateFirst, h]

theorem idxLookup_idxInsert_self (idx : Index) (k v : Str) :
    idxLookup (idxInsert idx k v) k = some v := by
  induction idx with
  | nil => simp [idxInsert, idxLookup, updateFirst, List.find?]
  | cons p rest ih =>
    rcases hpk : (p.1 == k) with _ | _
    · rw [idxInsert_cons_ne _ _ _ _ hpk]
      simp only [idxLookup, List.find?, hpk] at ih ⊢
      exact ih
    · have hins : idxInsert (p :: rest) k v = (p.1, v) :: rest := by
        unfold idxInsert
        simp [List.find?, hpk, updateFirst]
      rw [hins]
      simp [idxLookup, List.find?, hpk]

theorem idxCountKey_idxInsert_of_wf (idx : Index) (k v : Str) (hwf : idxWF idx) :
    idxCountKey (idxInsert idx k v) k = 1 := by
  induction idx with
  | nil => simp [idxInsert, idxCountKey, List.countP, List.countP.go]
  | cons p rest ih =>
    have hwf2 : (p.1 ∉ rest.map (·.1)) ∧ idxWF rest := by
      simpa [idxWF] using hwf
    by_cases hpk : (p.1 == k) = true
    · have hins : idxInsert (p :: rest) k v = (p.1, v) :: rest := by
        unfold idxInsert
        rw [List.find?_cons, hpk]
        simp [updateFirst, hpk]
      rw [hins]
      have hk0 : rest.countP (fun q => q.1 == k) = 0 := by
        rw [List.countP_eq_zero]
        intro q hq
        have : q.1 ∈ rest.map (·.1) := List.mem_map_of_mem _ hq
        have hne : q.1 ≠ p.1 := fun he => hwf2.1 (he ▸ this)
        simp only [beq_iff_eq]
        exact fun he => hne (he.trans (eq_of_beq hpk).symm)
      simp [idxCountKey, List.countP_cons, hpk, hk0]
    · rw [idxInsert_cons_ne _ _ _ _ (by simpa using hpk)]
      have := ih hwf2.2
      simp only [idxCountKey, List.countP_cons] at this ⊢
      rw [Bool.not_eq_true] at hpk
      simp [hpk, this]

theorem Function.name_pushOverload (f g : Function) :
    (f.pushOverload g).name = f.name := by cases f; rfl

theorem Function.overloads_pushOverload (f g : Function) :
    (f.pushOverload g).overloads = some (f.overloads.getD [] ++ [g]) := by cases f; rfl

/-- C1: two free functions (or function templates) of the same
non-deduction-guide name parsed into a namespace holding no function of
that name yield exactly one top-level `Function` of that name, whose
overload list holds exactly the second occurrence, and exactly one
index entry for the qualified name, inserted by the first occurrence
only. -/
theorem C1_overload_collapse
    (e1 e2 : Entity) (ns : Namespace) (idx : Index) (cur n : Str)
    (hk1 : e1.kind = .functionDecl ∨ e1.kind = .functionTemplate)
    (hk2 : e2.kind = .functionDecl ∨ e2.kind = .functionTemplate)
    (hn1 : e1.name = some n) (hn2 : e2.name = some n)
    (hfresh : ∀ f ∈ ns.functions, (f.name == replaceQuote n) = false)
    (hdg : containsSub "deduction guide".toList (replaceQuote n) = false)
    (hwf : idxWF idx) :
    (parse_node e1 ns idx cur).1.functions
        = ns.functions ++ [(parse_function e1).setNamespace cur]
    ∧ (parse_node e1 ns idx cur).2
        = idxInsert idx (getNameForNamespace n ns.name cur) "function".toList
    ∧ (parse_node e2 (parse_node e1 ns idx cur).1 (parse_node e1 ns idx cur).2 cur).1.functions
        = ns.functions ++ [((parse_function e1).setNamespace cur).pushOverload
            ((parse_function e2).setNamespace cur)]
    ∧ (parse_node e2 (parse_node e1 ns idx cur).1 (parse_node e1 ns idx cur).2 cur).2
        = (parse_node e1 ns idx cur).2
    ∧ (((parse_function e1).setNamespace cur).pushOverload
          ((parse_function e2).setNamespace cur)).overloads
        = some [(parse_function e2).setNamespace cur]
    ∧ ((parse_node e2 (parse_node e1 ns idx cur).1 (parse_node e1 ns idx cur).2 cur).1.functions.countP
          (fun f => f.name == replaceQuote n)) = 1
    ∧ idxCountKey (parse_node e1 ns idx cur).2 (getNameForNamespace n ns.name cur) = 1
    ∧ idxLookup (parse_node e1 ns idx cur).2 (getNameForNamespace n ns.name cur)
        = some "function".toList := by
  have hname1 : ((parse_function e1).setNamespace cur).name = replaceQuote n := by
    rw [Function.fn_name_setNamespace, parse_function_name, hn1]; rfl
  have hname2 : ((parse_function e2).setNamespace cur).name = replaceQuote n := by
    rw [Function.fn_name_setNamespace, parse_function_name, hn2]; rfl
  have hfindns : ns.functions.find? (fun f => f.name == replaceQuote n) = none :=
    List.find?_eq_none.mpr (fun f hf => by simp [hfresh f hf])
  have hstep1 : parse_node e1 ns idx cur
      = (ns.setFunctions (ns.functions ++ [(parse_function e1).setNamespace cur]),
         idxInsert idx (getNameForNamespace n ns.name cur) "function".toList) := by
    obtain ⟨k, nm, tn, rt, cm, ac, c1, c2, c3, tu, dn, mf, ch⟩ := e1
    simp only [Entity.name, Option.some.injEq] at hn1
    subst hn1
    rcases hk1 with hk | hk <;>
      (simp only [Entity.kind] at hk; subst hk;
       simp only [parse_node, hname1, hfindns, Option.isSome_none, Bool.false_eq_true, if_false,
         hdg, Option.getD_some])
  have hfind2 : (ns.functions ++ [(parse_function e1).setNamespace cur]).find?
      (fun f => f.name == replaceQuote n) = some ((parse_function e1).setNamespace cur) := by
    rw [find?_append_left_none _ hfindns]
    simp [List.find?_cons, hname1]
  have hstep2 : parse_node e2 (parse_node e1 ns idx cur).1 (parse_node e1 ns idx cur).2 cur
      = ((parse_node e1 ns idx cur).1.setFunctions
          (ns.functions ++ [((parse_function e1).setNamespace cur).pushOverload
            ((parse_function e2).setNamespace cur)]),
         (parse_node e1 ns idx cur).2) := by
    obtain ⟨k, nm, tn, rt, cm, ac, c1, c2, c3, tu, dn, mf, ch⟩ := e2
    simp only [Entity.name, Option.some.injEq] at hn2
    subst hn2
    rcases hk2 with hk | hk <;>
      (simp only [Entity.kind] at hk; subst hk;
       rw [hstep1]
       <;> simp only [parse_node, hname2, Namespace.functions_setFunctions, hfind2,
             Option.isSome_some, if_true]
       <;> rw [updateFirst_append_of_none _ (fun f hf => by simp [hname2, hfresh f hf])]
       <;> simp [updateFirst, hname1, hname2])
  refine ⟨by rw [hstep1]; simp, by rw [hstep1], ?_, by rw [hstep2], ?_, ?_, ?_, ?_⟩
  · rw [hstep2]
    simp
  · rw [Function.overloads_pushOverload, Function.overloads_setNamespace,
      parse_function_overloads]
    rfl
  · rw [hstep2]
    simp only [Namespace.functions_setFunctions, List.countP_append]
    rw [List.countP_eq_zero.mpr (fun f hf => by simp [hfresh f hf])]
    have hpn : (((parse_function e1).setNamespace cur).pushOverload
        ((parse_function e2).setNamespace cur)).name = replaceQuote n := by
      rw [Function.name_pushOverload, hname1]
    simp [List.countP_cons, hpn]
  · rw [hstep1]
    exact idxCountKey_idxInsert_of_wf idx _ _ hwf
  · rw [hstep1]
    exact idxLookup_idxInsert_self idx _ _

def c1FnEntity1 : Entity :=
  .mk .functionDecl (some "f".toList) none (some "void".toList) none none
    false false false none none true []

def c1FnEntity2 : Entity :=
  .mk .functionDecl (some "f".toList) none (some "int".toList) none none
    false false false none none true []

/-- Witness for C1: two free functions `f` parsed into the empty root
namespace leave exactly one `Function` named `f` and one index entry. -/
theorem C1_overload_collapse_witness :
    (parse_node c1FnEntity2 (parse_node c1FnEntity1 emptyRootNs [] []).1
        (parse_node c1FnEntity1 emptyRootNs [] []).2 []).1.functions.countP
      (fun f => f.name == replaceQuote "f".toList) = 1
    ∧ idxCountKey (parse_node c1FnEntity1 emptyRootNs [] []).2
        (getNameForNamespace "f".toList emptyRootNs.name []) = 1 :=
  have h := C1_overload_collapse c1FnEntity1 c1FnEntity2 emptyRootNs [] [] "f".toList
    (Or.inl rfl) (Or.inl rfl) rfl rfl
    (by intro f hf; simp [emptyRootNs, Namespace.functions] at hf)
    (by decide) (by simp [idxWF])
  ⟨h.2.2.2.2.2.1, h.2.2.2.2.2.2.1⟩

/-! ## Claim C3: absolute lookup vs contextual lookup -/

/-- C3 fails on the code as stated: with the index holding `a::b::c`,
both `resolve("::a::b::c", *)` and `resolve("c", "a::b")` succeed and
point at the same target, but the returned values are different
strings, because the rendered anchor text keeps the original
expression (`::a::b::c` in one, `c` in the other). -/
theorem C3_absolute_vs_contextual_counterexample :
    (get_link_for_type "::a::b::c".toList [] ⟨"u".toList⟩
        [("a::b::c".toList, "record".toList)]).isSome = true
    ∧ (get_link_for_type "c".toList "a::b".toList ⟨"u".toList⟩
        [("a::b::c".toList, "record".toList)]).isSome = true
    ∧ get_link_for_type "::a::b::c".toList [] ⟨"u".toList⟩
        [("a::b::c".toList, "record".toList)]
      ≠ get_link_for_type "c".toList "a::b".toList ⟨"u".toList⟩
        [("a::b::c".toList, "record".toList)] :=
  ⟨by decide, by decide, by decide⟩

/-- C3 amended: for every index holding the key `a::b::c` and every
context namespace, `resolve("::a::b::c", ctx)` and
`resolve("c", "a::b")` both succeed and derive the same target path;
the rendered results differ only in the displayed text (the original
absolute expression vs the bare name). -/
theorem C3_amended_same_target (cfg : Config) (ctx : Str) (idx : Index)
    (kind : Str) (h : idxLookup idx "a::b::c".toList = some kind) :
    ∃ p, get_path_for_name "a::b::c".toList idx = some p
      ∧ get_link_for_type "::a::b::c".toList ctx cfg idx
          = some (mkLink cfg.base_url p "::a::b::c".toList [])
      ∧ get_link_for_type "c".toList "a::b".toList cfg idx
          = some (mkLink cfg.base_url p "c".toList []) := by
  have hp : get_path_for_name "a::b::c".toList idx
      = some (if kind = "namespace".toList then "a/b/c".toList
              else "a/b/".toList ++ ((kind ++ ".".toList) ++ "c".toList)) := by
    unfold get_path_for_name
    simp only [h, Option.map_some]
    by_cases hk : kind = "namespace".toList
    · subst hk
      decide
    · have hkb : (kind == "namespace".toList) = false := by simpa using hk
      rw [hkb, if_neg hk]
      simp only [Bool.false_eq_true, if_false]
      rfl
  refine ⟨_, hp, ?_, ?_⟩
  · rw [get_link_for_type_of_not_contains _ _ _ _ (by decide)]
    have ta1 : trimStartMatches "const ".toList "::a::b::c".toList = "::a::b::c".toList := by
      decide
    have ta2 : trimMatchesPred (fun c => c == '&' || c == ' ' || c == '*')
        "::a::b::c".toList = "::a::b::c".toList := by decide
    have ta3 : trimStartMatches "::a::b::c".toList "::a::b::c".toList = ([] : Str) := by decide
    have ta4 : trimSpaces ([] : Str) = [] := by decide
    have ta5 : List.isPrefixOf "::".toList "::a::b::c".toList = true := by decide
    have ta6 : trimStartMatches "::".toList "::a::b::c".toList = "a::b::c".toList := by decide
    simp only [glftPlain]
    rw [ta1, ta2, ta3, ta4, ta5, ta6, hp]
    rfl
  · rw [get_link_for_type_of_not_contains _ _ _ _ (by decide)]
    have tb1 : trimStartMatches "const ".toList "c".toList = "c".toList := by decide
    have tb2 : trimMatchesPred (fun c => c == '&' || c == ' ' || c == '*')
        "c".toList = "c".toList := by decide
    have tb3 : trimStartMatches "c".toList "c".toList = ([] : Str) := by decide
    have tb4 : trimSpaces ([] : Str) = [] := by decide
    have tb5 : List.isPrefixOf "::".toList "c".toList = false := by decide
    have tb6 : "a::b".toList ++ "::".toList ++ "c".toList = "a::b::c".toList := by decide
    simp only [glftPlain]
    rw [tb1, tb2, tb3, tb4, tb5, tb6, hp]
    rfl

/-- Witness for the amended C3 at a concrete index of kind `enum`. -/
theorem C3_amended_witness :
    ∃ p, get_path_for_name "a::b::c".toList [("a::b::c".toList, "enum".toList)] = some p
      ∧ get_link_for_type "::a::b::c".toList "q".toList ⟨"u".toList⟩
          [("a::b::c".toList, "enum".toList)]
          = some (mkLink "u".toList p "::a::b::c".toList [])
      ∧ get_link_for_type "c".toList "a::b".toList ⟨"u".toList⟩
          [("a::b::c".toList, "enum".toList)]
          = some (mkLink "u".toList p "c".toList []) :=
  C3_amended_same_target ⟨"u".toList⟩ "q".toList
    [("a::b::c".toList, "enum".toList)] "enum".toList (by decide)

/-! ## Claim C8: contextual lookup order -/

theorem joinWith_cons_cons (sep x : Str) (h : Str) (t : List Str) :
    joinWith sep ((x ++ h) :: t) = x ++ joinWith sep (h :: t) := by
  cases t with
  | nil => simp [joinWith]
  | cons y t' => simp [joinWith, List.append_assoc]

/-- Splitting on `"::"` and joining back with `"::"` is the identity. -/
theorem joinWith_splitCC (s : Str) : joinWith "::".toList (splitCC s) = s := by
  induction s using splitCC.induct with
  | case1 => rfl
  | case2 c => rfl
  | case3 c c2 rest hcc ih =>
    obtain ⟨h1, h2⟩ := hcc
    subst h1; subst h2
    rw [splitCC.eq_3]
    rw [if_pos ⟨rfl, rfl⟩]
    rcases hs : splitCC rest with _ | ⟨h, t⟩
    · exact absurd hs (splitCC_ne_nil rest)
    · rw [hs] at ih
      simpa [joinWith] using ih
  | case4 c c2 rest hcc heq ih => exact absurd heq (splitCC_ne_nil _)
  | case5 c c2 rest hcc h t heq ih =>
    rw [splitCC.eq_3]
    rw [if_neg hcc, heq]
    rw [heq] at ih
    calc joinWith "::".toList ((c :: h) :: t)
        = [c] ++ joinWith "::".toList (h :: t) := joinWith_cons_cons "::".toList [c] h t
      _ = c :: c2 :: rest := by rw [ih]; rfl

/-- The resolution result of scanning a candidate list in order, first
index hit winning, each hit rendered as the hyperlink of its derived
path — the lookup procedure the claim describes. -/
def firstHitLink (cfg : Config) (idx : Index) (disp suffix : Str) : List Str → Option Str
  | [] => none
  | c :: rest =>
    match get_path_for_name c idx with
    | some ret => some (mkLink cfg.base_url ret disp suffix)
    | none => firstHitLink cfg idx disp suffix rest

/-- The successively shortened ancestor prefixes of the context
namespace, per the claim: drop the trailing-most component each time
until the prefix is empty. -/
def claimFallbackPrefixes (ctx : Str) : List Str :=
  ((List.range ((splitCC ctx).length - 1)).reverse).map
    (fun k => joinWith "::".toList ((splitCC ctx).take (k + 1)))

/-- The full candidate sequence of the claim: the candidate under the
full context namespace, the bare candidate, then the candidate under
each shortened ancestor prefix. -/
def claimCandidates (cand ctx : Str) : List Str :=
  (ctx ++ "::".toList ++ cand) :: cand ::
    (claimFallbackPrefixes ctx).map (fun p => p ++ "::".toList ++ cand)

/-- The fallback loop of the source is the ordered scan of the
prefix-joined candidates from `k` components down to one. -/
theorem glftFallback_eq_firstHit (cfg : Config) (idx : Index) (cand nws suffix : Str)
    (parts : List Str) (k : Nat) :
    glftFallback cfg idx cand nws suffix parts k
      = firstHitLink cfg idx nws suffix ((List.range k).reverse.map
          (fun j => joinWith "::".toList (parts.take (j + 1)) ++ "::".toList ++ cand)) := by
  induction k with
  | zero => rfl
  | succ k ih =>
    rw [List.range_succ]
    simp only [List.reverse_append, List.reverse_cons, List.reverse_nil, List.nil_append,
      List.cons_append, List.map_cons, glftFallback, firstHitLink]
    rcases hg : get_path_for_name (joinWith "::".toList (parts.take (k + 1))
        ++ "::".toList ++ cand) idx with _ | ret
    · simpa [hg] using ih
    · simp [hg]

theorem trimStartMatchesGo_nil (fuel : Nat) (pat : Str) :
    trimStartMatchesGo fuel pat [] = [] := by
  cases fuel with
  | zero => rfl
  | succ n =>
    cases pat with
    | nil => rfl
    | cons p ps => simp [trimStartMatchesGo, List.isPrefixOf]

theorem trimStartMatches_self (s : Str) : trimStartMatches s s = [] := by
  cases s with
  | nil => rfl
  | cons c rest =>
    have h1 : (c :: rest).isPrefixOf (c :: rest) = true := by
      simp [List.isPrefixOf_iff_prefix]
    simp [trimStartMatches, trimStartMatchesGo, h1, List.drop_length, trimStartMatchesGo_nil]

/-- C8: for a bare, non-absolute candidate name (no `<`, no leading
`::`, nothing for the qualifier stripping to remove), resolution is
exactly the ordered scan of the claim's candidate sequence — the
candidate under the full context namespace, the bare candidate at
global scope, then the candidate under each ancestor prefix obtained
by dropping the trailing-most component until the prefix is empty —
with the first index hit winning.  (The source retries the full
context prefix once more at the head of its fallback loop, but that
candidate has already missed, so the result is the same.) -/
theorem C8_contextual_lookup_order (cand ctx : Str) (cfg : Config) (idx : Index)
    (hlt : cand.contains '<' = false)
    (habs : List.isPrefixOf "::".toList cand = false)
    (hconst : trimStartMatches "const ".toList cand = cand)
    (htrim : trimMatchesPred (fun c => c == '&' || c == ' ' || c == '*') cand = cand) :
    get_link_for_type cand ctx cfg idx
      = firstHitLink cfg idx cand [] (claimCandidates cand ctx) := by
  rw [get_link_for_type_of_not_contains _ _ _ _ hlt]
  simp only [glftPlain]
  rw [hconst, htrim, trimStartMatches_self]
  have hsp : trimSpaces ([] : Str) = [] := rfl
  rw [hsp, habs]
  simp only [Bool.false_eq_true, if_false]
  rw [claimCandidates, firstHitLink]
  rcases hA : get_path_for_name (ctx ++ "::".toList ++ cand) idx with _ | ret
  · simp only [hA]
    rw [firstHitLink]
    rcases hB : get_path_for_name cand idx with _ | ret
    · simp only [hB]
      rw [glftFallback_eq_firstHit]
      have hn : (splitCC ctx).length = ((splitCC ctx).length - 1) + 1 := by
        have := splitCC_ne_nil ctx
        have : 0 < (splitCC ctx).length := List.length_pos.mpr this
        omega
      rw [hn, List.range_succ]
      simp only [List.reverse_append, List.reverse_cons, List.reverse_nil, List.nil_append,
        List.cons_append, List.map_cons, firstHitLink]
      have htake : (splitCC ctx).take ((splitCC ctx).length - 1 + 1) = splitCC ctx := by
        rw [← hn]
        exact List.take_length _
      rw [htake, joinWith_splitCC, hA]
      rw [claimFallbackPrefixes]
      rw [List.map_map]
      rfl
    · simp [hB]
  · simp [hA]

/-- Witness for C8, the claim's own instance: context `a::b::c`, target
registered only as `a::T`; resolving `T` succeeds through the ancestor
fallback. -/
theorem C8_contextual_lookup_witness :
    get_link_for_type "T".toList "a::b::c".toList ⟨"u".toList⟩
        [("a::T".toList, "record".toList)]
      = some (mkLink "u".toList "a/record.T".toList "T".toList []) :=
  (C8_contextual_lookup_order "T".toList "a::b::c".toList ⟨"u".toList⟩
      [("a::T".toList, "record".toList)]
      (by decide) (by decide) (by decide) (by decide)).trans (by decide)

/-! ## Claim C5: namespace reopening merges in place -/

@[simp] theorem Namespace.name_setRecords (ns : Namespace) (l : List Record) :
    (ns.setRecords l).name = ns.name := by cases ns; rfl

@[simp] theorem Namespace.name_setNamespaces (ns : Namespace) (l : List Namespace) :
    (ns.setNamespaces l).name = ns.name := by cases ns; rfl

@[simp] theorem Namespace.name_setEnums (ns : Namespace) (l : List Enum) :
    (ns.setEnums l).name = ns.name := by cases ns; rfl

@[simp] theorem Namespace.name_setAliases (ns : Namespace) (l : List Alias) :
    (ns.setAliases l).name = ns.name := by cases ns; rfl

@[simp] theorem Namespace.namespaces_setRecords (ns : Namespace) (l : List Record) :
    (ns.setRecords l).namespaces = ns.namespaces := by cases ns; rfl

@[simp] theorem Namespace.namespaces_setFunctions (ns : Namespace) (l : List Function) :
    (ns.setFunctions l).namespaces = ns.namespaces := by cases ns; rfl

@[simp] theorem Namespace.namespaces_setNamespaces (ns : Namespace) (l : List Namespace) :
    (ns.setNamespaces l).namespaces = l := by cases ns; rfl

@[simp] theorem Namespace.namespaces_setEnums (ns : Namespace) (l : List Enum) :
    (ns.setEnums l).namespaces = ns.namespaces := by cases ns; rfl

@[simp] theorem Namespace.namespaces_setAliases (ns : Namespace) (l : List Alias) :
    (ns.setAliases l).namespaces = ns.namespaces := by cases ns; rfl

/-- Boolean membership of a string in a list of strings. -/
def strElem (x : Str) : List Str → Bool
  | [] => false
  | s :: rest => x == s || strElem x rest

/-- Boolean "all names distinct". -/
def strListNodup : List Str → Bool
  | [] => true
  | s :: rest => !(strElem s rest) && strListNodup rest

mutual

/-- No two sibling namespaces anywhere in the tree share a name. -/
def nsUniq : Namespace → Bool
  | .mk _ _ _ _ subs _ _ _ => strListNodup (subs.map Namespace.name) && nsListUniq subs

def nsListUniq : List Namespace → Bool
  | [] => true
  | n :: rest => nsUniq n && nsListUniq rest

end

theorem nsUniq_def (ns : Namespace) :
    nsUniq ns = (strListNodup (ns.namespaces.map Namespace.name) && nsListUniq ns.namespaces) := by
  cases ns; rfl

@[simp] theorem nsListUniq_cons (n : Namespace) (l : List Namespace) :
    nsListUniq (n :: l) = (nsUniq n && nsListUniq l) := rfl

theorem nsListUniq_append_singleton (l : List Namespace) (y : Namespace) :
    nsListUniq (l ++ [y]) = (nsListUniq l && nsUniq y) := by
  induction l with
  | nil => simp [nsListUniq]
  | cons x rest ih => simp [nsListUniq, ih, Bool.and_assoc]

theorem strElem_append_singleton (a : Str) (m : List Str) (b : Str) :
    strElem a (m ++ [b]) = (strElem a m || (b == a)) := by
  have hsym : ∀ x y : Str, (x == y) = (y == x) := by
    intro x y
    rcases hab : x == y with _ | _
    · rcases hba : y == x with _ | _
      · rfl
      · exact absurd (eq_of_beq hba).symm (by simpa using hab)
    · simp [eq_of_beq hab]
  induction m with
  | nil => simp [strElem, hsym a b]
  | cons c mrest ihm =>
    simp only [List.cons_append, strElem, List.append_eq]
    rw [ihm, Bool.or_assoc]

theorem strListNodup_append_singleton (l : List Str) (x : Str) :
    strListNodup (l ++ [x]) = (strListNodup l && !(strElem x l)) := by
  have hsym : ∀ a b : Str, (a == b) = (b == a) := by
    intro a b
    rcases hab : a == b with _ | _
    · rcases hba : b == a with _ | _
      · rfl
      · exact absurd (eq_of_beq hba).symm (by simpa using hab)
    · simp [eq_of_beq hab]
  induction l with
  | nil => simp [strListNodup, strElem]
  | cons s rest ih =>
    simp only [List.cons_append, strListNodup, List.append_eq]
    rw [strElem_append_singleton s rest x, ih]
    have hx : strElem x (s :: rest) = ((x == s) || strElem x rest) := rfl
    rw [hx, hsym x s]
    rcases hA : strElem s rest with _ | _ <;> rcases hB : s == x with _ | _ <;>
      rcases hC : strListNodup rest with _ | _ <;> rcases hD : strElem x rest with _ | _ <;>
      rfl

theorem strElem_map_name_false (subs : List Namespace) (name : Str)
    (h : ∀ n ∈ subs, (n.name == name) = false) :
    strElem name (subs.map Namespace.name) = false := by
  induction subs with
  | nil => rfl
  | cons n rest ih =>
    simp only [List.map_cons, strElem, Bool.or_eq_false_iff]
    constructor
    · rcases hb : name == n.name with _ | _
      · rfl
      · have he : name = n.name := eq_of_beq hb
        have h2 := h n (List.mem_cons_self n rest)
        rw [← he] at h2
        simp at h2
    · exact ih (fun m hm => h m (by simp [hm]))

theorem updateFirst_map {p : α → Bool} {f : α → α} {g : α → β} (l : List α)
    (h : ∀ x, p x = true → g (f x) = g x) :
    (updateFirst p f l).map g = l.map g := by
  induction l with
  | nil => rfl
  | cons x rest ih =>
    rcases hx : p x with _ | _
    · simp [updateFirst, hx, ih]
    · simp [updateFirst, hx, h x hx]

theorem nsListUniq_updateFirst {p : Namespace → Bool} (l : List Namespace) (y : Namespace)
    (hl : nsListUniq l = true) (hy : nsUniq y = true) :
    nsListUniq (updateFirst p (fun _ => y) l) = true := by
  induction l with
  | nil => rfl
  | cons x rest ih =>
    simp only [nsListUniq_cons, Bool.and_eq_true] at hl
    rcases hx : p x with _ | _
    · simp only [updateFirst, hx, Bool.false_eq_true, if_false, nsListUniq_cons,
        Bool.and_eq_true]
      exact ⟨hl.1, ih hl.2⟩
    · simp only [updateFirst, hx, if_true, nsListUniq_cons, Bool.and_eq_true]
      exact ⟨hy, hl.2⟩

theorem nsListUniq_mem (l : List Namespace) (x : Namespace)
    (hl : nsListUniq l = true) (hx : x ∈ l) : nsUniq x = true := by
  induction l with
  | nil => exact absurd hx (List.not_mem_nil x)
  | cons y rest ih =>
    simp only [nsListUniq_cons, Bool.and_eq_true] at hl
    rcases List.mem_cons.mp hx with he | hm
    · exact he ▸ hl.1
    · exact ih hl.2 hm

theorem nsUniq_of_namespaces_eq (a b : Namespace)
    (hn : a.namespaces = b.namespaces) (h : nsUniq b = true) : nsUniq a = true := by
  rw [nsUniq_def, hn, ← nsUniq_def]
  exact h

theorem parse_node_name (e : Entity) (ns : Namespace) (idx : Index) (cur : Str) :
    (parse_node e ns idx cur).1.name = ns.name := by
  obtain ⟨k, nm, tn, rt, cm, ac, c1, c2, c3, tu, dn, mf, ch⟩ := e
  cases k <;> simp only [parse_node] <;> (try split) <;> (try split) <;> simp

theorem parse_nodes_name (es : List Entity) (ns : Namespace) (idx : Index) (cur : Str) :
    (parse_nodes es ns idx cur).1.name = ns.name := by
  induction es generalizing ns idx with
  | nil => rfl
  | cons c rest ih =>
    simp only [parse_nodes]
    rw [ih, parse_node_name]

theorem parse_node_namespaces_other (e : Entity) (ns : Namespace) (idx : Index) (cur : Str)
    (hk : e.kind ≠ .namespaceDecl) :
    (parse_node e ns idx cur).1.namespaces = ns.namespaces := by
  obtain ⟨k, nm, tn, rt, cm, ac, c1, c2, c3, tu, dn, mf, ch⟩ := e
  cases k <;> (try exact absurd rfl hk) <;>
    simp only [parse_node] <;> (try split) <;> (try split) <;> simp

mutual

theorem parse_node_uniq (e : Entity) (ns : Namespace) (idx : Index) (cur : Str)
    (h : nsUniq ns = true) : nsUniq (parse_node e ns idx cur).1 = true := by
  obtain ⟨k, nm, tn, rt, cm, ac, c1, c2, c3, tu, dn, mf, ch⟩ := e
  cases k
  case' namespaceDecl =>
    simp only [parse_node]
    rcases hf : ns.namespaces.find? (fun n => n.name == nm.getD []) with _ | ex
    · simp only [hf]
      rw [nsUniq_def]
      simp only [Namespace.namespaces_setNamespaces]
      have hfreshu : nsUniq (Namespace.mk (nm.getD []) (cm.map parse_comment)
          [] [] [] [] [] (some cur)) = true := rfl
      have hsub := parse_nodes_uniq ch
        (Namespace.mk (nm.getD []) (cm.map parse_comment) [] [] [] [] [] (some cur))
        (idxInsert idx (getNameForNamespace (nm.getD []) ns.name cur) "namespace".toList)
        (if !cur.isEmpty then cur ++ "::".toList ++ nm.getD [] else nm.getD []) hfreshu
      have hsubname := parse_nodes_name ch
        (Namespace.mk (nm.getD []) (cm.map parse_comment) [] [] [] [] [] (some cur))
        (idxInsert idx (getNameForNamespace (nm.getD []) ns.name cur) "namespace".toList)
        (if !cur.isEmpty then cur ++ "::".toList ++ nm.getD [] else nm.getD [])
      rw [nsUniq_def, Bool.and_eq_true] at h
      rw [List.map_append, List.map_cons, List.map_nil, Bool.and_eq_true]
      constructor
      · rw [strListNodup_append_singleton]
        rw [hsubname]
        simp only [Namespace.name]
        rw [strElem_map_name_false ns.namespaces (nm.getD [])
          (fun n hn => by simpa using List.find?_eq_none.mp hf n hn)]
        simp [h.1]
      · rw [nsListUniq_append_singleton, Bool.and_eq_true]
        exact ⟨h.2, hsub⟩
    · simp only [hf]
      rw [nsUniq_def]
      simp only [Namespace.namespaces_setNamespaces]
      have hexmem : ex ∈ ns.namespaces := List.mem_of_find?_eq_some hf
      have hexp := List.find?_some hf
      have hexname : ex.name = nm.getD [] := eq_of_beq hexp
      rw [nsUniq_def, Bool.and_eq_true] at h
      have hexu : nsUniq ex = true := nsListUniq_mem ns.namespaces ex h.2 hexmem
      have hsub := parse_nodes_uniq ch ((ns.namespaces.find?
          (fun n => n.name == nm.getD [])).getD ns)
        (idxInsert idx (getNameForNamespace (nm.getD []) ns.name cur) "namespace".toList)
        (if !cur.isEmpty then cur ++ "::".toList ++ nm.getD [] else nm.getD [])
        (by rw [hf]; exact hexu)
      have hsubname := parse_nodes_name ch ((ns.namespaces.find?
          (fun n => n.name == nm.getD [])).getD ns)
        (idxInsert idx (getNameForNamespace (nm.getD []) ns.name cur) "namespace".toList)
        (if !cur.isEmpty then cur ++ "::".toList ++ nm.getD [] else nm.getD [])
      rw [hf] at hsub hsubname
      rw [Bool.and_eq_true]
      constructor
      · rw [updateFirst_map]
        · exact h.1
        · intro x hx
          rw [hsubname]
          simp only [Option.getD_some]
          rw [hexname]
          exact (eq_of_beq hx).symm
      · exact nsListUniq_updateFirst ns.namespaces _ h.2 hsub
  all_goals exact nsUniq_of_namespaces_eq _ ns (parse_node_namespaces_other _ ns idx cur (by simp [Entity.kind])) h

theorem parse_nodes_uniq (es : List Entity) (ns : Namespace) (idx : Index) (cur : Str)
    (h : nsUniq ns = true) : nsUniq (parse_nodes es ns idx cur).1 = true := by
  cases es with
  | nil => exact h
  | cons c rest =>
    simp only [parse_nodes]
    exact parse_nodes_uniq rest _ _ cur (parse_node_uniq c ns idx cur h)

end

/-- C5: parsing preserves the invariant that no two sibling namespaces
anywhere in the tree share a name; a namespace entity whose short name
matches an existing sibling leaves the sibling name list unchanged
(merged in place) while a fresh name is appended exactly once; and in
the merge case the traversal descends into the existing subtree: the
matching sibling is replaced by the parse of the entity's children
into it. -/
theorem C5_namespace_reopen_merge :
    (∀ (e : Entity) (ns : Namespace) (idx : Index) (cur : Str),
      nsUniq ns = true → nsUniq (parse_node e ns idx cur).1 = true)
    ∧ (∀ (e : Entity) (ns : Namespace) (idx : Index) (cur : Str),
        e.kind = .namespaceDecl →
        ((parse_node e ns idx cur).1.namespaces.map Namespace.name)
          = (if (ns.namespaces.find? (fun n => n.name == e.name.getD [])).isSome
             then ns.namespaces.map Namespace.name
             else ns.namespaces.map Namespace.name ++ [e.name.getD []]))
    ∧ (∀ (e : Entity) (ns : Namespace) (idx : Index) (cur : Str) (ex : Namespace),
        e.kind = .namespaceDecl →
        ns.namespaces.find? (fun n => n.name == e.name.getD []) = some ex →
        (parse_node e ns idx cur).1.namespaces
          = updateFirst (fun n => n.name == e.name.getD [])
              (fun _ => (parse_nodes e.children ex
                (idxInsert idx (getNameForNamespace (e.name.getD []) ns.name cur)
                  "namespace".toList)
                (if !cur.isEmpty then cur ++ "::".toList ++ e.name.getD []
                 else e.name.getD [])).1)
              ns.namespaces) := by
  refine ⟨parse_node_uniq, ?_, ?_⟩
  · intro e ns idx cur hk
    obtain ⟨k, nm, tn, rt, cm, ac, c1, c2, c3, tu, dn, mf, ch⟩ := e
    simp only [Entity.kind] at hk
    subst hk
    simp only [Entity.name, parse_node]
    rcases hf : ns.namespaces.find? (fun n => n.name == nm.getD []) with _ | ex
    · simp only [hf, Option.isSome_none, Bool.false_eq_true, if_false,
        Namespace.namespaces_setNamespaces, List.map_append, List.map_cons, List.map_nil]
      rw [parse_nodes_name]
      rfl
    · simp only [hf, Option.isSome_some, if_true, Namespace.namespaces_setNamespaces]
      rw [updateFirst_map]
      intro x hx
      have hexp := List.find?_some hf
      have hexname : ex.name = nm.getD [] := eq_of_beq hexp
      rw [parse_nodes_name]
      simp only [Option.getD_some]
      rw [hexname]
      exact (eq_of_beq hx).symm
  · intro e ns idx cur ex hk hf
    obtain ⟨k, nm, tn, rt, cm, ac, c1, c2, c3, tu, dn, mf, ch⟩ := e
    simp only [Entity.kind] at hk
    subst hk
    simp only [Entity.name, Entity.children] at hf ⊢
    simp only [parse_node, hf, Option.getD_some, Namespace.namespaces_setNamespaces]

def c5NsEntity : Entity :=
  .mk .namespaceDecl (some "n".toList) none none none none
    false false false none none true []

/-- Witness for C5: reopening the namespace `n` leaves the sibling name
list `["n"]` unchanged. -/
theorem C5_namespace_reopen_witness :
    ((parse_node c5NsEntity (parse_node c5NsEntity emptyRootNs [] []).1 [] []).1.namespaces.map
        Namespace.name)
      = (parse_node c5NsEntity emptyRootNs [] []).1.namespaces.map Namespace.name
    ∧ (parse_node c5NsEntity emptyRootNs [] []).1.namespaces.map Namespace.name
      = ["n".toList] := by
  have hb := C5_namespace_reopen_merge.2.1 c5NsEntity
    ((parse_node c5NsEntity emptyRootNs [] []).1) [] [] rfl
  rw [hb]
  exact ⟨by decide, by decide⟩

/-! ## Claim C10: double quotes in function names -/

mutual

/-- No function name in this function, its overloads included, holds a
double-quote character. -/
def funcNoQuote : Function → Bool
  | .mk n _ _ _ _ _ _ none => !n.contains '"'
  | .mk n _ _ _ _ _ _ (some l) => !n.contains '"' && funcsNoQuote l

def funcsNoQuote : List Function → Bool
  | [] => true
  | f :: rest => funcNoQuote f && funcsNoQuote rest

end

mutual

def fieldNoQuote : Field → Bool
  | .mk _ _ _ none => true
  | .mk _ _ _ (some nf) => nfNoQuote nf

def nfNoQuote : NestedField → Bool
  | .record r => recordNoQuote r
  | .enum _ => true

/-- No function name anywhere in this record (methods, constructors,
inline nested values, nested records) holds a double quote. -/
def recordNoQuote : Record → Bool
  | .mk _ flds _ _ _ ct ms _ nst =>
    fieldsNoQuote flds && funcsNoQuote ct && funcsNoQuote ms && nstNoQuote nst

def nstNoQuote : Option (List NestedField) → Bool
  | none => true
  | some l => nfsNoQuote l

def fieldsNoQuote : List Field → Bool
  | [] => true
  | f :: rest => fieldNoQuote f && fieldsNoQuote rest

def nfsNoQuote : List NestedField → Bool
  | [] => true
  | nf :: rest => nfNoQuote nf && nfsNoQuote rest

end

def recordsNoQuote : List Record → Bool
  | [] => true
  | r :: rest => recordNoQuote r && recordsNoQuote rest

mutual

/-- No function name anywhere in the namespace tree holds a double
quote. -/
def nsNoQuote : Namespace → Bool
  | .mk _ _ recs fns subs _ _ _ =>
    recordsNoQuote recs && funcsNoQuote fns && nssNoQuote subs

def nssNoQuote : List Namespace → Bool
  | [] => true
  | n :: rest => nsNoQuote n && nssNoQuote rest

end

theorem contains_append (l1 l2 : Str) (a : Char) :
    (l1 ++ l2).contains a = (l1.contains a || l2.contains a) := by
  induction l1 with
  | nil => simp
  | cons c rest ih => simp [List.contains_cons, ih, Bool.or_assoc]

theorem replaceQuote_no_quote (s : Str) : (replaceQuote s).contains '"' = false := by
  induction s with
  | nil => rfl
  | cons c rest ih =>
    by_cases hc : c = '"'
    · subst hc
      rw [replaceQuote, contains_append, ih]
      rfl
    · rw [replaceQuote.eq_3]
      · rw [List.contains_cons, ih]
        have hbc : ('"' == c) = false := by
          rcases hb : '"' == c with _ | _
          · rfl
          · exact absurd (eq_of_beq hb).symm hc
        rw [hbc]
        rfl
      · exact fun h => hc h

theorem funcNoQuote_parse_function (e : Entity) :
    funcNoQuote (parse_function e) = true := by
  obtain ⟨k, nm, tn, rt, cm, ac, c1, c2, c3, tu, dn, mf, ch⟩ := e
  show funcNoQuote (.mk (replaceQuote (nm.getD [])) _ _ _ _ _ _ none) = true
  rw [funcNoQuote, replaceQuote_no_quote]
  rfl

@[simp] theorem funcNoQuote_setNamespace (f : Function) (x : Str) :
    funcNoQuote (f.setNamespace x) = funcNoQuote f := by
  obtain ⟨n, r, p, c, pr, ns, t, o⟩ := f
  cases o <;> rfl

@[simp] theorem funcNoQuote_clearReturnType (f : Function) :
    funcNoQuote f.clearReturnType = funcNoQuote f := by
  obtain ⟨n, r, p, c, pr, ns, t, o⟩ := f
  cases o <;> rfl

theorem funcsNoQuote_append (l1 l2 : List Function) :
    funcsNoQuote (l1 ++ l2) = (funcsNoQuote l1 && funcsNoQuote l2) := by
  induction l1 with
  | nil => simp [funcsNoQuote]
  | cons f rest ih => simp [funcsNoQuote, ih, Bool.and_assoc]

theorem fieldsNoQuote_append (l1 l2 : List Field) :
    fieldsNoQuote (l1 ++ l2) = (fieldsNoQuote l1 && fieldsNoQuote l2) := by
  induction l1 with
  | nil => simp [fieldsNoQuote]
  | cons f rest ih => simp [fieldsNoQuote, ih, Bool.and_assoc]

theorem nfsNoQuote_append (l1 l2 : List NestedField) :
    nfsNoQuote (l1 ++ l2) = (nfsNoQuote l1 && nfsNoQuote l2) := by
  induction l1 with
  | nil => simp [nfsNoQuote]
  | cons nf rest ih => simp [nfsNoQuote, ih, Bool.and_assoc]

theorem funcNoQuote_pushOverload (f g : Function)
    (hf : funcNoQuote f = true) (hg : funcNoQuote g = true) :
    funcNoQuote (f.pushOverload g) = true := by
  obtain ⟨n, r, p, c, pr, ns, t, o⟩ := f
  cases o with
  | none =>
    rw [funcNoQuote] at hf
    show funcNoQuote (.mk n r p c pr ns t (some ([] ++ [g]))) = true
    rw [funcNoQuote, List.nil_append, funcsNoQuote, funcsNoQuote, hf, hg]
    rfl
  | some l =>
    rw [funcNoQuote, Bool.and_eq_true] at hf
    show funcNoQuote (.mk n r p c pr ns t (some (l ++ [g]))) = true
    rw [funcNoQuote, funcsNoQuote_append, funcsNoQuote, funcsNoQuote, hf.1, hf.2, hg]
    rfl

theorem funcsNoQuote_updateFirst {p : Function → Bool} {f : Function → Function}
    (l : List Function) (hl : funcsNoQuote l = true)
    (hf : ∀ x, funcNoQuote x = true → funcNoQuote (f x) = true) :
    funcsNoQuote (updateFirst p f l) = true := by
  induction l with
  | nil => rfl
  | cons x rest ih =>
    rw [funcsNoQuote, Bool.and_eq_true] at hl
    rcases hx : p x with _ | _
    · simp only [updateFirst, hx, Bool.false_eq_true, if_false, funcsNoQuote, Bool.and_eq_true]
      exact ⟨hl.1, ih hl.2⟩
    · simp only [updateFirst, hx, if_true, funcsNoQuote, Bool.and_eq_true]
      exact ⟨hf x hl.1, hl.2⟩

@[simp] theorem recordNoQuote_setNamespace (r : Record) (x : Str) :
    recordNoQuote (r.setNamespace x) = recordNoQuote r := by
  obtain ⟨n, flds, c, k, ns, ct, ms, t, nst⟩ := r
  rfl

theorem recordNoQuote_appendMethods (r : Record) (ms : List Function)
    (hr : recordNoQuote r = true) (hm : funcsNoQuote ms = true) :
    recordNoQuote (r.appendMethods ms) = true := by
  obtain ⟨n, flds, c, k, ns, ct, m0, t, nst⟩ := r
  rw [recordNoQuote] at hr
  show recordNoQuote (.mk n flds c k ns ct (m0 ++ ms) t nst) = true
  rw [recordNoQuote, funcsNoQuote_append]
  simp only [Bool.and_eq_true] at hr ⊢
  exact ⟨⟨⟨hr.1.1.1, hr.1.1.2⟩, by rw [hm, hr.1.2]; exact ⟨rfl, rfl⟩⟩, hr.2⟩

theorem recordNoQuote_pushField (acc : Record) (fld : Field)
    (ha : recordNoQuote acc = true) (hf : fieldNoQuote fld = true) :
    recordNoQuote (acc.pushField fld) = true := by
  obtain ⟨n, flds, c, k, ns, ct, ms, t, nst⟩ := acc
  rw [recordNoQuote] at ha
  show recordNoQuote (.mk n (flds ++ [fld]) c k ns ct ms t nst) = true
  rw [recordNoQuote, fieldsNoQuote_append]
  have hone : fieldsNoQuote [fld] = true := by
    rw [fieldsNoQuote, hf, fieldsNoQuote]
    rfl
  simp only [Bool.and_eq_true] at ha ⊢
  exact ⟨⟨⟨⟨ha.1.1.1, hone⟩, ha.1.1.2⟩, ha.1.2⟩, ha.2⟩

theorem recordNoQuote_pushCtor (acc : Record) (fn : Function)
    (ha : recordNoQuote acc = true) (hf : funcNoQuote fn = true) :
    recordNoQuote (acc.pushCtor fn) = true := by
  obtain ⟨n, flds, c, k, ns, ct, ms, t, nst⟩ := acc
  rw [recordNoQuote] at ha
  show recordNoQuote (.mk n flds c k ns (ct ++ [fn]) ms t nst) = true
  rw [recordNoQuote, funcsNoQuote_append]
  have hone : funcsNoQuote [fn] = true := by
    rw [funcsNoQuote, hf, funcsNoQuote]
    rfl
  simp only [Bool.and_eq_true] at ha ⊢
  exact ⟨⟨⟨ha.1.1.1, ⟨ha.1.1.2, hone⟩⟩, ha.1.2⟩, ha.2⟩

theorem recordNoQuote_pushMethod (acc : Record) (fn : Function)
    (ha : recordNoQuote acc = true) (hf : funcNoQuote fn = true) :
    recordNoQuote (acc.pushMethod fn) = true := by
  obtain ⟨n, flds, c, k, ns, ct, ms, t, nst⟩ := acc
  rw [recordNoQuote] at ha
  show recordNoQuote (.mk n flds c k ns ct (ms ++ [fn]) t nst) = true
  rw [recordNoQuote, funcsNoQuote_append]
  have hone : funcsNoQuote [fn] = true := by
    rw [funcsNoQuote, hf, funcsNoQuote]
    rfl
  simp only [Bool.and_eq_true] at ha ⊢
  exact ⟨⟨⟨ha.1.1.1, ha.1.1.2⟩, ⟨ha.1.2, hone⟩⟩, ha.2⟩

theorem recordNoQuote_setNested_some (acc : Record) (l : List NestedField)
    (ha : recordNoQuote acc = true) (hl : nfsNoQuote l = true) :
    recordNoQuote (acc.setNested (some l)) = true := by
  obtain ⟨n, flds, c, k, ns, ct, ms, t, nst⟩ := acc
  rw [recordNoQuote] at ha
  show recordNoQuote (.mk n flds c k ns ct ms t (some l)) = true
  rw [recordNoQuote]
  simp only [Bool.and_eq_true] at ha ⊢
  exact ⟨⟨⟨ha.1.1.1, ha.1.1.2⟩, ha.1.2⟩, by rw [nstNoQuote]; exact hl⟩

theorem nfsNoQuote_nested_getD (acc : Record) (ha : recordNoQuote acc = true) :
    nfsNoQuote (acc.nested.getD []) = true := by
  obtain ⟨n, flds, c, k, ns, ct, ms, t, nst⟩ := acc
  rw [recordNoQuote] at ha
  simp only [Bool.and_eq_true] at ha
  have := ha.2
  cases nst with
  | none => rfl
  | some l =>
    rw [nstNoQuote] at this
    simpa [Record.nested] using this

/-- The per-child step of `parseRecordChildren`, restated as a named
function (definitionally equal to the inlined match). -/
def parseRecordChild (c : Entity) (acc : Record) : Record :=
  let childAsRecord := parse_record c
  match c with
  | .mk ckind cname ctypeName _ ccomment caccess _ _ _ _ _ _ cchildren =>
    match ckind with
    | .fieldDecl =>
      if caccess == some Accessibility.publicAcc then
        let field : Field :=
          .mk (cname.getD []) (ctypeName.getD []) (ccomment.map parse_comment) none
        let field :=
          if containsSub "(unnamed struct".toList field.type_ then
            match parseFirstRecordOfKind EntityKind.structDecl cchildren with
            | some r => Field.mk field.name "struct".toList field.comment (some (.record r))
            | none => field
          else field
        let field :=
          if containsSub "(unnamed union".toList field.type_ then
            match parseFirstRecordOfKind EntityKind.unionDecl cchildren with
            | some r => Field.mk field.name "union".toList field.comment (some (.record r))
            | none => field
          else field
        let field :=
          if containsSub "(unnamed enum".toList field.type_ then
            match cchildren.find? (fun g => g.kind == EntityKind.enumDecl) with
            | some g =>
              Field.mk field.name "enum".toList field.comment (some (.enum (parse_enum g)))
            | none => field
          else field
        acc.pushField field
      else acc
    | .constructorDecl =>
      acc.pushCtor ((parse_function c).clearReturnType)
    | .methodDecl | .functionTemplate =>
      if caccess == some Accessibility.publicAcc then
        acc.pushMethod ((parse_function c).setNamespace acc.name)
      else acc
    | .structDecl | .classDecl | .unionDecl | .classTemplate =>
      let record := childAsRecord
      if !("(anonymous".toList.isPrefixOf record.name)
          && !("(unnamed".toList.isPrefixOf record.name) then
        let record := record.setNamespace acc.name
        if acc.nested.isNone then
          acc.setNested (some [])
        else
          acc.setNested (some ((acc.nested.getD []) ++ [NestedField.record record]))
      else acc
    | .enumDecl =>
      let enum_ := parse_enum c
      if !("(anonymous".toList.isPrefixOf enum_.name)
          && !("(unnamed".toList.isPrefixOf enum_.name) then
        let enum_ := { enum_ with namespace_ := some acc.name }
        let acc := if acc.nested.isNone then acc.setNested (some []) else acc
        acc.setNested (some ((acc.nested.getD []) ++ [NestedField.enum enum_]))
      else acc
    | _ => acc

theorem parseRecordChildren_cons (c : Entity) (rest : List Entity) (acc : Record) :
    parseRecordChildren (c :: rest) acc = parseRecordChildren rest (parseRecordChild c acc) := by
  obtain ⟨ck, cn, ctn, crt, ccm, cac, d1, d2, d3, ctu, cdn, cmf, cch⟩ := c
  rfl

theorem parseRecordChild_noQuote (c : Entity) (acc : Record)
    (h : recordNoQuote acc = true)
    (hrec : recordNoQuote (parse_record c) = true)
    (hfirst : ∀ k r, parseFirstRecordOfKind k c.children = some r → recordNoQuote r = true) :
    recordNoQuote (parseRecordChild c acc) = true := by
  obtain ⟨ck, cn, ctn, crt, ccm, cac, d1, d2, d3, ctu, cdn, cmf, cch⟩ := c
  simp only [Entity.children] at hfirst
  unfold parseRecordChild
  cases ck
  all_goals dsimp only
  case fieldDecl =>
    split
    · apply recordNoQuote_pushField _ _ h
      repeat' split
      all_goals simp only [fieldNoQuote, nfNoQuote]
      all_goals first
        | rfl
        | exact hfirst _ _ ‹_›
    · exact h
  case constructorDecl =>
    apply recordNoQuote_pushCtor _ _ h
    rw [funcNoQuote_clearReturnType]
    exact funcNoQuote_parse_function _
  case methodDecl =>
    split
    · apply recordNoQuote_pushMethod _ _ h
      rw [funcNoQuote_setNamespace]
      exact funcNoQuote_parse_function _
    · exact h
  case functionTemplate =>
    split
    · apply recordNoQuote_pushMethod _ _ h
      rw [funcNoQuote_setNamespace]
      exact funcNoQuote_parse_function _
    · exact h
  case structDecl =>
    split
    · split
      · exact recordNoQuote_setNested_some _ _ h rfl
      · apply recordNoQuote_setNested_some _ _ h
        rw [nfsNoQuote_append, nfsNoQuote_nested_getD _ h]
        simp only [nfsNoQuote, nfNoQuote, recordNoQuote_setNamespace, hrec]
        rfl
    · exact h
  case classDecl =>
    split
    · split
      · exact recordNoQuote_setNested_some _ _ h rfl
      · apply recordNoQuote_setNested_some _ _ h
        rw [nfsNoQuote_append, nfsNoQuote_nested_getD _ h]
        simp only [nfsNoQuote, nfNoQuote, recordNoQuote_setNamespace, hrec]
        rfl
    · exact h
  case unionDecl =>
    split
    · split
      · exact recordNoQuote_setNested_some _ _ h rfl
      · apply recordNoQuote_setNested_some _ _ h
        rw [nfsNoQuote_append, nfsNoQuote_nested_getD _ h]
        simp only [nfsNoQuote, nfNoQuote, recordNoQuote_setNamespace, hrec]
        rfl
    · exact h
  case classTemplate =>
    split
    · split
      · exact recordNoQuote_setNested_some _ _ h rfl
      · apply recordNoQuote_setNested_some _ _ h
        rw [nfsNoQuote_append, nfsNoQuote_nested_getD _ h]
        simp only [nfsNoQuote, nfNoQuote, recordNoQuote_setNamespace, hrec]
        rfl
    · exact h
  case enumDecl =>
    split
    · split
      · apply recordNoQuote_setNested_some
        · exact recordNoQuote_setNested_some acc [] h rfl
        · rw [nfsNoQuote_append,
            nfsNoQuote_nested_getD _ (recordNoQuote_setNested_some acc [] h rfl)]
          rfl
      · apply recordNoQuote_setNested_some
        · exact h
        · rw [nfsNoQuote_append, nfsNoQuote_nested_getD _ h]
          rfl
    · exact h
  all_goals exact h

mutual

theorem parse_record_noQuote (e : Entity) : recordNoQuote (parse_record e) = true := by
  obtain ⟨k, nm, tn, rt, cm, ac, c1, c2, c3, tu, dn, mf, ch⟩ := e
  rw [parse_record]
  exact parseRecordChildren_noQuote ch _ rfl

theorem parseRecordChildren_noQuote (cs : List Entity) (acc : Record)
    (h : recordNoQuote acc = true) : recordNoQuote (parseRecordChildren cs acc) = true := by
  cases cs with
  | nil => exact h
  | cons c rest =>
    obtain ⟨ck, cn, ctn, crt, ccm, cac, d1, d2, d3, ctu, cdn, cmf, cch⟩ := c
    rw [parseRecordChildren_cons]
    exact parseRecordChildren_noQuote rest _
      (parseRecordChild_noQuote _ acc h
        (parse_record_noQuote (Entity.mk ck cn ctn crt ccm cac d1 d2 d3 ctu cdn cmf cch))
        (fun k r heq => parseFirstRecordOfKind_noQuote k cch r heq))

theorem parseFirstRecordOfKind_noQuote (k : EntityKind) (cs : List Entity) (r : Record)
    (h : parseFirstRecordOfKind k cs = some r) : recordNoQuote r = true := by
  cases cs with
  | nil => exact absurd h (by rw [parseFirstRecordOfKind]; exact Option.noConfusion)
  | cons g rest =>
    rw [parseFirstRecordOfKind] at h
    split at h
    · rw [Option.some.injEq] at h
      subst h
      exact parse_record_noQuote g
    · exact parseFirstRecordOfKind_noQuote k rest r h

end

@[simp] theorem Namespace.records_setRecords (ns : Namespace) (l : List Record) :
    (ns.setRecords l).records = l := by cases ns; rfl

@[simp] theorem Namespace.records_setFunctions (ns : Namespace) (l : List Function) :
    (ns.setFunctions l).records = ns.records := by cases ns; rfl

@[simp] theorem Namespace.records_setNamespaces (ns : Namespace) (l : List Namespace) :
    (ns.setNamespaces l).records = ns.records := by cases ns; rfl

@[simp] theorem Namespace.records_setEnums (ns : Namespace) (l : List Enum) :
    (ns.setEnums l).records = ns.records := by cases ns; rfl

@[simp] theorem Namespace.records_setAliases (ns : Namespace) (l : List Alias) :
    (ns.setAliases l).records = ns.records := by cases ns; rfl

@[simp] theorem Namespace.functions_setRecords (ns : Namespace) (l : List Record) :
    (ns.setRecords l).functions = ns.functions := by cases ns; rfl

@[simp] theorem Namespace.functions_setNamespaces (ns : Namespace) (l : List Namespace) :
    (ns.setNamespaces l).functions = ns.functions := by cases ns; rfl

@[simp] theorem Namespace.functions_setEnums (ns : Namespace) (l : List Enum) :
    (ns.setEnums l).functions = ns.functions := by cases ns; rfl

@[simp] theorem Namespace.functions_setAliases (ns : Namespace) (l : List Alias) :
    (ns.setAliases l).functions = ns.functions := by cases ns; rfl

theorem nsNoQuote_def (ns : Namespace) :
    nsNoQuote ns
      = (recordsNoQuote ns.records && funcsNoQuote ns.functions
          && nssNoQuote ns.namespaces) := by
  cases ns; rfl

@[simp] theorem nssNoQuote_cons (n : Namespace) (l : List Namespace) :
    nssNoQuote (n :: l) = (nsNoQuote n && nssNoQuote l) := rfl

theorem nssNoQuote_append_singleton (l : List Namespace) (y : Namespace) :
    nssNoQuote (l ++ [y]) = (nssNoQuote l && nsNoQuote y) := by
  induction l with
  | nil => simp [nssNoQuote]
  | cons x rest ih => simp [nssNoQuote, ih, Bool.and_assoc]

theorem nssNoQuote_mem (l : List Namespace) (x : Namespace)
    (hl : nssNoQuote l = true) (hx : x ∈ l) : nsNoQuote x = true := by
  induction l with
  | nil => exact absurd hx (List.not_mem_nil x)
  | cons y rest ih =>
    simp only [nssNoQuote_cons, Bool.and_eq_true] at hl
    rcases List.mem_cons.mp hx with he | hm
    · exact he ▸ hl.1
    · exact ih hl.2 hm

theorem nssNoQuote_updateFirst {p : Namespace → Bool} (l : List Namespace) (y : Namespace)
    (hl : nssNoQuote l = true) (hy : nsNoQuote y = true) :
    nssNoQuote (updateFirst p (fun _ => y) l) = true := by
  induction l with
  | nil => rfl
  | cons x rest ih =>
    simp only [nssNoQuote_cons, Bool.and_eq_true] at hl
    rcases hx : p x with _ | _
    · simp only [updateFirst, hx, Bool.false_eq_true, if_false, nssNoQuote_cons,
        Bool.and_eq_true]
      exact ⟨hl.1, ih hl.2⟩
    · simp only [updateFirst, hx, if_true, nssNoQuote_cons, Bool.and_eq_true]
      exact ⟨hy, hl.2⟩

theorem recordsNoQuote_append (l1 l2 : List Record) :
    recordsNoQuote (l1 ++ l2) = (recordsNoQuote l1 && recordsNoQuote l2) := by
  induction l1 with
  | nil => simp [recordsNoQuote]
  | cons r rest ih => simp [recordsNoQuote, ih, Bool.and_assoc]

theorem recordsNoQuote_updateFirst {p : Record → Bool} {f : Record → Record}
    (l : List Record) (hl : recordsNoQuote l = true)
    (hf : ∀ x, recordNoQuote x = true → recordNoQuote (f x) = true) :
    recordsNoQuote (updateFirst p f l) = true := by
  induction l with
  | nil => rfl
  | cons x rest ih =>
    rw [recordsNoQuote, Bool.and_eq_true] at hl
    rcases hx : p x with _ | _
    · simp only [updateFirst, hx, Bool.false_eq_true, if_false, recordsNoQuote,
        Bool.and_eq_true]
      exact ⟨hl.1, ih hl.2⟩
    · simp only [updateFirst, hx, if_true, recordsNoQuote, Bool.and_eq_true]
      exact ⟨hf x hl.1, hl.2⟩

theorem recordNoQuote_methods (r : Record) (h : recordNoQuote r = true) :
    funcsNoQuote r.methods = true := by
  obtain ⟨n, flds, c, k, ns, ct, ms, t, nst⟩ := r
  rw [recordNoQuote] at h
  simp only [Bool.and_eq_true] at h
  exact h.1.2

theorem recordNoQuote_nested_some (r : Record) (nest : List NestedField)
    (h : recordNoQuote r = true) (he : r.nested = some nest) :
    nfsNoQuote nest = true := by
  obtain ⟨n, flds, c, k, ns, ct, ms, t, nst⟩ := r
  rw [recordNoQuote] at h
  simp only [Bool.and_eq_true] at h
  have := h.2
  simp only [Record.nested] at he
  subst he
  rw [nstNoQuote] at this
  exact this

@[simp] theorem Record.nested_setNamespace (r : Record) (x : Str) :
    (r.setNamespace x).nested = r.nested := by cases r; rfl

theorem registerNestedList_noQuote (cur recName : Str) (l : List NestedField) (idx : Index)
    (hl : nfsNoQuote l = true) :
    nfsNoQuote (registerNestedList cur recName l idx).1 = true := by
  induction l generalizing idx with
  | nil => rfl
  | cons nf rest ih =>
    rw [nfsNoQuote, Bool.and_eq_true] at hl
    cases nf with
    | record r =>
      rw [registerNestedList]
      rw [nfsNoQuote, Bool.and_eq_true]
      constructor
      · rw [nfNoQuote] at hl ⊢
        rw [recordNoQuote_setNamespace]
        exact hl.1
      · exact ih _ hl.2
    | enum e =>
      rw [registerNestedList]
      rw [nfsNoQuote, Bool.and_eq_true]
      exact ⟨rfl, ih _ hl.2⟩

mutual

theorem parse_node_noQuote (e : Entity) (ns : Namespace) (idx : Index) (cur : Str)
    (h : nsNoQuote ns = true) : nsNoQuote (parse_node e ns idx cur).1 = true := by
  obtain ⟨k, nm, tn, rt, cm, ac, c1, c2, c3, tu, dn, mf, ch⟩ := e
  rw [nsNoQuote_def, Bool.and_eq_true, Bool.and_eq_true] at h
  cases k
  case functionDecl | functionTemplate =>
    simp only [parse_node]
    split
    · rw [nsNoQuote_def]
      simp only [Namespace.records_setFunctions, Namespace.functions_setFunctions,
        Namespace.namespaces_setFunctions, Bool.and_eq_true]
      refine ⟨⟨h.1.1, ?_⟩, h.2⟩
      apply funcsNoQuote_updateFirst _ h.1.2
      intro x hx
      apply funcNoQuote_pushOverload _ _ hx
      rw [funcNoQuote_setNamespace]
      exact funcNoQuote_parse_function _
    · split
      · rw [nsNoQuote_def]
        simp only [Bool.and_eq_true]
        exact ⟨⟨h.1.1, h.1.2⟩, h.2⟩
      · rw [nsNoQuote_def]
        simp only [Namespace.records_setFunctions, Namespace.functions_setFunctions,
          Namespace.namespaces_setFunctions, Bool.and_eq_true]
        refine ⟨⟨h.1.1, ?_⟩, h.2⟩
        rw [funcsNoQuote_append, h.1.2]
        simp only [Bool.true_and, funcsNoQuote, Bool.and_true, funcNoQuote_setNamespace]
        exact funcNoQuote_parse_function _
  case structDecl | classDecl | unionDecl | classTemplate =>
    simp only [parse_node]
    split
    · rw [nsNoQuote_def]
      simp only [Namespace.records_setRecords, Namespace.functions_setRecords,
        Namespace.namespaces_setRecords, Bool.and_eq_true]
      refine ⟨⟨?_, h.1.2⟩, h.2⟩
      apply recordsNoQuote_updateFirst _ h.1.1
      intro x hx
      refine recordNoQuote_appendMethods _ _ hx (recordNoQuote_methods _ ?_)
      rw [recordNoQuote_setNamespace]
      exact parse_record_noQuote _
    · split
      · rename_i nest heq
        rw [nsNoQuote_def]
        simp only [Namespace.records_setRecords, Namespace.functions_setRecords,
          Namespace.namespaces_setRecords, Bool.and_eq_true]
        refine ⟨⟨?_, h.1.2⟩, h.2⟩
        rw [recordsNoQuote_append, h.1.1]
        simp only [Bool.true_and, recordsNoQuote, Bool.and_true]
        refine recordNoQuote_setNested_some _ _ ?_
          (registerNestedList_noQuote _ _ _ _ (recordNoQuote_nested_some _ _ ?_ heq))
        all_goals rw [recordNoQuote_setNamespace]
        all_goals exact parse_record_noQuote _
      · rw [nsNoQuote_def]
        simp only [Namespace.records_setRecords, Namespace.functions_setRecords,
          Namespace.namespaces_setRecords, Bool.and_eq_true]
        refine ⟨⟨?_, h.1.2⟩, h.2⟩
        rw [recordsNoQuote_append, h.1.1]
        simp only [Bool.true_and, recordsNoQuote, Bool.and_true]
        rw [recordNoQuote_setNamespace]
        exact parse_record_noQuote _
  case enumDecl =>
    simp only [parse_node]
    rw [nsNoQuote_def]
    simp only [Namespace.records_setEnums, Namespace.functions_setEnums,
      Namespace.namespaces_setEnums, Bool.and_eq_true]
    exact ⟨⟨h.1.1, h.1.2⟩, h.2⟩
  case typeAliasDecl =>
    simp only [parse_node]
    rw [nsNoQuote_def]
    simp only [Namespace.records_setAliases, Namespace.functions_setAliases,
      Namespace.namespaces_setAliases, Bool.and_eq_true]
    exact ⟨⟨h.1.1, h.1.2⟩, h.2⟩
  case namespaceDecl =>
    simp only [parse_node]
    rcases hf : ns.namespaces.find? (fun n => n.name == nm.getD []) with _ | ex
    · simp only [hf]
      rw [nsNoQuote_def]
      simp only [Namespace.records_setNamespaces, Namespace.functions_setNamespaces,
        Namespace.namespaces_setNamespaces, Bool.and_eq_true]
      refine ⟨⟨h.1.1, h.1.2⟩, ?_⟩
      rw [nssNoQuote_append_singleton, Bool.and_eq_true]
      exact ⟨h.2, parse_nodes_noQuote ch _ _ _ rfl⟩
    · simp only [hf]
      rw [nsNoQuote_def]
      simp only [Namespace.records_setNamespaces, Namespace.functions_setNamespaces,
        Namespace.namespaces_setNamespaces, Bool.and_eq_true]
      refine ⟨⟨h.1.1, h.1.2⟩, ?_⟩
      apply nssNoQuote_updateFirst _ _ h.2
      apply parse_nodes_noQuote
      exact nssNoQuote_mem ns.namespaces ex h.2 (List.mem_of_find?_eq_some hf)
  all_goals
    simp only [parse_node]
    rw [nsNoQuote_def]
    simp only [Bool.and_eq_true]
    exact ⟨⟨h.1.1, h.1.2⟩, h.2⟩

theorem parse_nodes_noQuote (es : List Entity) (ns : Namespace) (idx : Index) (cur : Str)
    (h : nsNoQuote ns = true) : nsNoQuote (parse_nodes es ns idx cur).1 = true := by
  cases es with
  | nil => exact h
  | cons c rest =>
    simp only [parse_nodes]
    exact parse_nodes_noQuote rest _ _ cur (parse_node_noQuote c ns idx cur h)

end

/-- The CXCursor of a literal operator `operator""` as a function entity. -/
def c10FnEntity : Entity :=
  .mk .functionDecl (some "operator\"\"".toList) none (some "int".toList) none none
    false false false none none true []

/-- C10: `Parser::parse_function` — the single constructor for free functions,
methods, constructors and function templates — stores as the Function name the
entity spelling with every double-quote character replaced by the literal
five-character token `&quot` (no trailing semicolon): the stored name equals
`replaceQuote` of the entity name, `operator""` becomes `operator&quot&quot`,
`replaceQuote` output never contains a double quote, and quote-freeness of all
function names in the model (methods and overload lists included) is preserved
by every parse step. -/
theorem C10_function_name_quote_replacement :
    (∀ e : Entity, (parse_function e).name = replaceQuote (e.name.getD []))
    ∧ replaceQuote "operator\"\"".toList = "operator&quot&quot".toList
    ∧ (∀ s : Str, (replaceQuote s).contains '"' = false)
    ∧ (∀ (e : Entity) (ns : Namespace) (idx : Index) (cur : Str),
        nsNoQuote ns = true → nsNoQuote (parse_node e ns idx cur).1 = true) :=
  ⟨parse_function_name, by decide, replaceQuote_no_quote, parse_node_noQuote⟩

/-- C10 at a concrete input: parsing `operator""` stores
`operator&quot&quot`, and parsing it into the empty root namespace keeps
every function name quote-free. -/
theorem C10_function_name_quote_replacement_witness :
    (parse_function c10FnEntity).name = "operator&quot&quot".toList
    ∧ nsNoQuote (parse_node c10FnEntity emptyRootNs [] []).1 = true :=
  ⟨(C10_function_name_quote_replacement.1 c10FnEntity).trans (by decide),
   C10_function_name_quote_replacement.2.2.2 c10FnEntity emptyRootNs [] [] (by decide)⟩

end Cppdoc
